import Mathlib

/- Verification development for the invoice batch-processing pipeline in
   process_invoices.py: a shallow embedding of the result parser, the
   retry controller, the rate limiter, the progress ledger, the result
   store and the batch orchestrator, together with theorems checking the
   natural-language specification against this embedding.

   Text is modelled as List Char.  Python string primitives (strip,
   replace, startswith, pathlib suffix, json loads and dump) are embedded
   as executable functions with the semantics of the CPython standard
   library, since the source calls them as external primitives. -/

/-- Whitespace predicate of Python str.strip: space, tab, newline,
carriage return, form feed, vertical tab. -/
def isPySpace (c : Char) : Bool :=
  c = ' ' || c = '\t' || c = '\n' || c = '\r' || c = Char.ofNat 12 || c = Char.ofNat 11

/-- Drop leading Python whitespace. -/
def dropWs (s : List Char) : List Char := s.dropWhile isPySpace

/-- Python str.strip: remove leading and trailing whitespace. -/
def pyStrip (s : List Char) : List Char := (dropWs (dropWs s).reverse).reverse

/-- Python str.startswith on character lists. -/
def begins : List Char → List Char → Bool
  | [], _ => true
  | _ :: _, [] => false
  | a :: as, b :: bs => if a = b then begins as bs else false

/-- Fuelled scan of Python str.replace(pat, "") with empty replacement:
delete every left-to-right non-overlapping occurrence of pat.  Fuel
bounds the scan; fuel = length of the text suffices for nonempty pat. -/
def removeAllF (pat : List Char) : Nat → List Char → List Char
  | 0, s => s
  | _ + 1, [] => []
  | f + 1, c :: rest =>
    if begins pat (c :: rest) then
      removeAllF pat f (List.drop (pat.length - 1) rest)
    else
      c :: removeAllF pat f rest

/-- Python str.replace(pat, "") on character lists. -/
def removeAll (pat s : List Char) : List Char := removeAllF pat s.length s

/-- Python list membership x in l (on names). -/
def pyIn (n : List Char) (l : List (List Char)) : Bool :=
  match l with
  | [] => false
  | m :: rest => if m = n then true else pyIn n rest

/-- Does pat occur as a contiguous block anywhere in s? -/
def containsSeq (pat : List Char) : List Char → Bool
  | [] => begins pat []
  | c :: rest => begins pat (c :: rest) || containsSeq pat rest

/-- The backtick character. -/
def btick : Char := Char.ofNat 96

/-- A fence marker: three consecutive backticks. -/
def ticks : List Char := [btick, btick, btick]

/-- A language-tagged fence marker: three backticks followed by json. -/
def ticksJson : List Char := ticks ++ ['j', 's', 'o', 'n']

/-- The response-text cleanup inside analyze_invoice: strip, then if the
text starts with a fence marker delete every occurrence of the marker
(str.replace with empty replacement, tagged marker first when the text
starts with the tagged form), then strip again. -/
def stripResponse (raw : List Char) : List Char :=
  let t := pyStrip raw
  if begins ticksJson t then
    pyStrip (removeAll ticks (removeAll ticksJson t))
  else if begins ticks t then
    pyStrip (removeAll ticks t)
  else t

/-- Identifiers and text in the model. -/
abbrev Name := List Char

/-- JSON values as decoded by json.loads; numbers keep their lexeme. -/
inductive Json where
  | jnull : Json
  | jbool : Bool → Json
  | jnum : List Char → Json
  | jstr : List Char → Json
  | jarr : List Json → Json
  | jobj : List (Name × Json) → Json

/-- A Python dict with string keys: insertion-ordered association list
with unique keys. -/
abbrev PyDict := List (Name × Json)

instance : Nonempty PyDict := ⟨[]⟩

instance : Nonempty (Name × Json) := ⟨([], Json.jnull)⟩

/-- Python dict assignment d[k] = v: update in place when the key exists
(keeping its position), append otherwise. -/
def dictSet (d : PyDict) (k : Name) (v : Json) : PyDict :=
  match d with
  | [] => [(k, v)]
  | (k', v') :: rest => if k' = k then (k, v) :: rest else (k', v') :: dictSet rest k v

/-- Python dict lookup d.get(k). -/
def getKey (d : PyDict) (k : Name) : Option Json :=
  match d with
  | [] => none
  | (k', v) :: rest => if k' = k then some v else getKey rest k

/-- The left brace character. -/
def lbrace : Char := Char.ofNat 123

/-- The right brace character. -/
def rbrace : Char := Char.ofNat 125

/-- JSON inter-token whitespace. -/
def isJsonWs (c : Char) : Bool := c = ' ' || c = '\t' || c = '\n' || c = '\r'

/-- Drop leading JSON whitespace. -/
def dropJWs (s : List Char) : List Char := s.dropWhile isJsonWs

/-- Decode a single-character JSON string escape. -/
def escDecode (c : Char) : Option Char :=
  if c = '"' then some '"'
  else if c = '\\' then some '\\'
  else if c = '/' then some '/'
  else if c = 'b' then some (Char.ofNat 8)
  else if c = 'f' then some (Char.ofNat 12)
  else if c = 'n' then some '\n'
  else if c = 'r' then some '\r'
  else if c = 't' then some '\t'
  else none

/-- Value of a hexadecimal digit. -/
def hexVal (c : Char) : Option Nat :=
  if '0' ≤ c ∧ c ≤ '9' then some (c.toNat - '0'.toNat)
  else if 'a' ≤ c ∧ c ≤ 'f' then some (c.toNat - 'a'.toNat + 10)
  else if 'A' ≤ c ∧ c ≤ 'F' then some (c.toNat - 'A'.toNat + 10)
  else none

/-- Parse a JSON string body after the opening quote; strict: raw control
characters are rejected, unknown escapes are rejected, surrogate escapes
are left unmodelled. -/
def parseStrBody : List Char → Option (List Char × List Char)
  | [] => none
  | c :: rest =>
    if c = '"' then some ([], rest)
    else if c = '\\' then
      match rest with
      | [] => none
      | e :: rest' =>
        if e = 'u' then
          match rest' with
          | h1 :: h2 :: h3 :: h4 :: rest2 =>
            match hexVal h1, hexVal h2, hexVal h3, hexVal h4 with
            | some a, some b, some c2, some d =>
              let n := ((a * 16 + b) * 16 + c2) * 16 + d
              if 0xd800 ≤ n ∧ n ≤ 0xdfff then none
              else (parseStrBody rest2).map (fun p => (Char.ofNat n :: p.1, p.2))
            | _, _, _, _ => none
          | _ => none
        else
          match escDecode e with
          | some d => (parseStrBody rest').map (fun p => (d :: p.1, p.2))
          | none => none
    else if c.toNat < 32 then none
    else (parseStrBody rest).map (fun p => (c :: p.1, p.2))

/-- Decimal digit predicate. -/
def isDigitCh (c : Char) : Bool := '0' ≤ c && c ≤ '9'

/-- Parse an optional JSON fraction part. -/
def parseFrac : List Char → Option (List Char × List Char)
  | [] => some ([], [])
  | c :: r =>
    if c = '.' then
      let ds := r.takeWhile isDigitCh
      if ds.isEmpty then none else some (c :: ds, r.dropWhile isDigitCh)
    else some ([], c :: r)

/-- Parse an optional JSON exponent part. -/
def parseExp : List Char → Option (List Char × List Char)
  | [] => some ([], [])
  | c :: r =>
    if c = 'e' ∨ c = 'E' then
      let sg : List Char × List Char :=
        match r with
        | d :: r' => if d = '+' ∨ d = '-' then ([d], r') else ([], r)
        | [] => ([], [])
      let ds := sg.2.takeWhile isDigitCh
      if ds.isEmpty then none else some (c :: sg.1 ++ ds, sg.2.dropWhile isDigitCh)
    else some ([], c :: r)

/-- Parse a JSON number lexeme (strict: no leading zeros, no bare dot). -/
def parseNum (s : List Char) : Option (List Char × List Char) :=
  let sp : List Char × List Char :=
    match s with
    | c :: rest => if c = '-' then ([c], rest) else ([], s)
    | [] => ([], [])
  match sp.2 with
  | [] => none
  | c :: rest =>
    if ¬ isDigitCh c then none
    else
      let ip : List Char × List Char :=
        if c = '0' then ([c], rest)
        else (c :: rest.takeWhile isDigitCh, rest.dropWhile isDigitCh)
      match parseFrac ip.2 with
      | none => none
      | some (fp, s3) =>
        match parseExp s3 with
        | none => none
        | some (ep, s4) => some (sp.1 ++ ip.1 ++ fp ++ ep, s4)

/-- Lexeme of the null literal. -/
def nullLit : List Char := ['n', 'u', 'l', 'l']

/-- Lexeme of the true literal. -/
def trueLit : List Char := ['t', 'r', 'u', 'e']

/-- Lexeme of the false literal. -/
def falseLit : List Char := ['f', 'a', 'l', 's', 'e']

/-- Lexeme of NaN (accepted by Python json). -/
def nanLit : List Char := ['N', 'a', 'N']

/-- Lexeme of Infinity (accepted by Python json). -/
def infLit : List Char := ['I', 'n', 'f', 'i', 'n', 'i', 't', 'y']

/-- Lexeme of -Infinity (accepted by Python json). -/
def negInfLit : List Char := '-' :: infLit

mutual

/-- Fuelled recursive-descent parse of one JSON value, mirroring the
strict grammar of json.loads. -/
def parseVal : Nat → List Char → Option (Json × List Char)
  | 0, _ => none
  | f + 1, input =>
    match dropJWs input with
    | [] => none
    | c :: rest =>
      if c = '"' then (parseStrBody rest).map (fun p => (Json.jstr p.1, p.2))
      else if c = lbrace then parseObjBody f rest
      else if c = '[' then parseArrBody f rest
      else if begins nullLit (c :: rest) then some (Json.jnull, (c :: rest).drop 4)
      else if begins trueLit (c :: rest) then some (Json.jbool true, (c :: rest).drop 4)
      else if begins falseLit (c :: rest) then some (Json.jbool false, (c :: rest).drop 5)
      else if begins nanLit (c :: rest) then some (Json.jnum nanLit, (c :: rest).drop 3)
      else if begins infLit (c :: rest) then some (Json.jnum infLit, (c :: rest).drop 8)
      else if begins negInfLit (c :: rest) then some (Json.jnum negInfLit, (c :: rest).drop 9)
      else (parseNum (c :: rest)).map (fun p => (Json.jnum p.1, p.2))

/-- Parse an object body after the opening brace. -/
def parseObjBody : Nat → List Char → Option (Json × List Char)
  | 0, _ => none
  | f + 1, input =>
    match dropJWs input with
    | c :: rest => if c = rbrace then some (Json.jobj [], rest) else parseMembers f (c :: rest) []
    | [] => none

/-- Parse one or more key-value members; duplicate keys collapse through
dictSet exactly as in a Python dict. -/
def parseMembers : Nat → List Char → PyDict → Option (Json × List Char)
  | 0, _, _ => none
  | f + 1, input, acc =>
    match dropJWs input with
    | c :: rest =>
      if c = '"' then
        match parseStrBody rest with
        | none => none
        | some (key, r1) =>
          match dropJWs r1 with
          | d :: r2 =>
            if d = ':' then
              match parseVal f r2 with
              | none => none
              | some (v, r3) =>
                match dropJWs r3 with
                | e :: r4 =>
                  if e = ',' then parseMembers f r4 (dictSet acc key v)
                  else if e = rbrace then some (Json.jobj (dictSet acc key v), r4)
                  else none
                | [] => none
            else none
          | [] => none
      else none
    | [] => none

/-- Parse an array body after the opening bracket. -/
def parseArrBody : Nat → List Char → Option (Json × List Char)
  | 0, _ => none
  | f + 1, input =>
    match dropJWs input with
    | c :: rest => if c = ']' then some (Json.jarr [], rest) else parseElems f (c :: rest) []
    | [] => none

/-- Parse one or more array elements. -/
def parseElems : Nat → List Char → List Json → Option (Json × List Char)
  | 0, _, _ => none
  | f + 1, input, acc =>
    match parseVal f input with
    | none => none
    | some (v, r1) =>
      match dropJWs r1 with
      | c :: r2 =>
        if c = ',' then parseElems f r2 (acc ++ [v])
        else if c = ']' then some (Json.jarr (acc ++ [v]), r2)
        else none
      | [] => none

end

/-- json.loads: strict parse of a complete document; trailing data other
than whitespace is an error.  The fuel is an upper bound on the call
depth of the scanner, never reached on any input. -/
def jsonLoads (s : List Char) : Option Json :=
  match parseVal (3 * s.length + 3) s with
  | some (v, rest) => if dropJWs rest = [] then some v else none
  | none => none

/-- Hex digit character (lower case), as emitted by json.dump. -/
def hexDigit (n : Nat) : Char :=
  if n < 10 then Char.ofNat ('0'.toNat + n) else Char.ofNat ('a'.toNat + n - 10)

/-- A BMP unicode escape; astral code points need surrogate pairs, which
stay unmodelled (no claim depends on them). -/
def uEscape (c : Char) : List Char :=
  let n := c.toNat % 0x10000
  ['\\', 'u', hexDigit (n / 4096 % 16), hexDigit (n / 256 % 16), hexDigit (n / 16 % 16),
    hexDigit (n % 16)]

/-- Escape one character the way json.dump (ensure_ascii default) does:
backslash, quote and the short control escapes, unicode escapes for the
rest outside printable ASCII. -/
def escapeChar (c : Char) : List Char :=
  if c = '"' then ['\\', '"']
  else if c = '\\' then ['\\', '\\']
  else if c = '\n' then ['\\', 'n']
  else if c = '\t' then ['\\', 't']
  else if c = '\r' then ['\\', 'r']
  else if c = Char.ofNat 8 then ['\\', 'b']
  else if c = Char.ofNat 12 then ['\\', 'f']
  else if c.toNat < 32 ∨ 126 < c.toNat then uEscape c
  else [c]

/-- Escape a whole string for a JSON document. -/
def escapeStr (s : List Char) : List Char := s.foldr (fun c acc => escapeChar c ++ acc) []

/-- A quoted JSON string literal. -/
def jquote (s : List Char) : List Char := '"' :: escapeStr s ++ ['"']

/-- A printable-ASCII character needing no escape. -/
def plainChar (c : Char) : Bool := 32 ≤ c.toNat && c.toNat ≤ 126 && c ≠ '"' && c ≠ '\\'

/-- Text made of characters needing no escape. -/
def plainText (s : List Char) : Bool := s.all plainChar

/-- The rest of the identifier array of the dumped ledger after its first
element: each further name on its own line at indent 4, then the closing
bracket at indent 2, exactly as json.dump(..., indent=2) lays it out. -/
def namesTail : List Name → List Char
  | [] => '\n' :: [' ', ' ', ']']
  | n :: ns => ',' :: '\n' :: [' ', ' ', ' ', ' '] ++ jquote n ++ namesTail ns

/-- The identifier array of the dumped ledger. -/
def serializeNames : List Name → List Char
  | [] => ['[', ']']
  | n :: ns => '[' :: '\n' :: [' ', ' ', ' ', ' '] ++ jquote n ++ namesTail ns

/-- The JSON object key holding the completed identifiers. -/
def processedKey : Name := "processed".toList

/-- The JSON object key holding the save timestamp. -/
def lastUpdatedKey : Name := "last_updated".toList

/-- The full text json.dump writes in save_progress: the dict with the
processed list and the fresh timestamp, indent=2, keys in insertion
order, no trailing newline. -/
def serializeLedger (processedFiles : List Name) (ts : Name) : List Char :=
  lbrace :: '\n' :: [' ', ' '] ++ jquote processedKey ++ [':', ' '] ++
    serializeNames processedFiles ++ [',', '\n', ' ', ' '] ++ jquote lastUpdatedKey ++
    [':', ' '] ++ jquote ts ++ ['\n', rbrace]

/-- The file content save_progress leaves on a completed write. -/
def saveProgressContent (processedFiles : List Name) (ts : Name) : List Char :=
  serializeLedger processedFiles ts

/-- All prefixes of a file content: the possible on-disk states of an
in-place open(path, 'w') write, which first truncates the file and then
writes the content front to back, so a crash at any point leaves some
prefix on disk. -/
def crashContents (content : List Char) : List (List Char) :=
  (List.range (content.length + 1)).map (fun k => content.take k)

/-- The on-disk states a crash during save_progress can leave. -/
def saveProgressCrashStates (processedFiles : List Name) (ts : Name) : List (List Char) :=
  crashContents (saveProgressContent processedFiles ts)

/-- Read a JSON array of strings. -/
def asNames : List Json → Option (List Name)
  | [] => some []
  | Json.jstr s :: rest => (asNames rest).map (fun ns => s :: ns)
  | _ => none

/-- The completed-identifier extraction of load_progress: json.load, then
progress.get('processed', []).  A document that is not an object, or a
processed payload that is not an array of strings, counts as unreadable
here. -/
def loadProcessedNames (content : List Char) : Option (List Name) :=
  match jsonLoads content with
  | some (Json.jobj d) =>
    match getKey d processedKey with
    | some (Json.jarr xs) => asNames xs
    | none => some []
    | some _ => none
  | _ => none

/-- The timestamp field of a persisted ledger. -/
def ledgerLastUpdated (content : List Char) : Option Name :=
  match jsonLoads content with
  | some (Json.jobj d) =>
    match getKey d lastUpdatedKey with
    | some (Json.jstr s) => some s
    | _ => none
  | _ => none

/-- One upstream attempt as the orchestrator sees it: the model call
returned text, raised ResourceExhausted (optionally carrying a suggested
retry delay in seconds), or failed some other way (covering every other
exception inside the per-attempt try block). -/
inductive CallResult where
  | text : List Char → CallResult
  | resourceExhausted : Option Nat → CallResult
  | otherFailure : CallResult

/-- Terminal outcome of analyze_invoice for one item.  The code returns
the data dict on success and None on every failure; the constructors
record which except branch produced the None. -/
inductive Outcome where
  | ok : PyDict → Outcome
  | quotaFail : Outcome
  | malformed : List Char → Outcome
  | unexpected : Outcome

/-- What one analyze_invoice run did: its outcome, how many upstream
attempts it consumed, and the backoff sleeps (in seconds) it performed. -/
structure AnalyzeResult where
  outcome : Outcome
  calls : Nat
  backoffSleeps : List Nat

/-- The key analyze_invoice adds to the decoded dict. -/
def invoiceFileKey : Name := "invoice_file".toList

/-- The response handling of one successful upstream call inside
analyze_invoice: clean the text, json.loads it (a decode error logs the
first 200 characters of the offending text and returns None), then
data['invoice_file'] = name (which on a non-dict raises TypeError into
the generic except branch). -/
def classify (fileName : Name) (raw : List Char) : Outcome :=
  let t := stripResponse raw
  match jsonLoads t with
  | none => Outcome.malformed (t.take 200)
  | some (Json.jobj d) => Outcome.ok (dictSet d invoiceFileKey (Json.jstr fileName))
  | some _ => Outcome.unexpected

/-- The retry loop of analyze_invoice (for attempt in range(3)): on
ResourceExhausted with attempts left, sleep the suggested delay (default
60 s) and retry; on the last attempt return the failure; text responses
and other faults return immediately.  attempt is the current index, rem
the number of attempts still allowed including this one. -/
def analyzeLoop (resp : Nat → CallResult) (fileName : Name) : Nat → Nat → AnalyzeResult
  | _, 0 => ⟨Outcome.quotaFail, 0, []⟩
  | attempt, rem + 1 =>
    match resp attempt with
    | CallResult.text raw => ⟨classify fileName raw, 1, []⟩
    | CallResult.otherFailure => ⟨Outcome.unexpected, 1, []⟩
    | CallResult.resourceExhausted d =>
      if rem = 0 then ⟨Outcome.quotaFail, 1, []⟩
      else
        let r := analyzeLoop resp fileName (attempt + 1) rem
        ⟨r.outcome, r.calls + 1, d.getD 60 :: r.backoffSleeps⟩

/-- max_retries in analyze_invoice. -/
def maxRetries : Nat := 3

/-- analyze_invoice on one item, driven by an oracle giving the result of
each upstream attempt. -/
def analyzeInvoice (resp : Nat → CallResult) (fileName : Name) : AnalyzeResult :=
  analyzeLoop resp fileName 0 maxRetries

/-- The Optional[Dict] the caller of analyze_invoice actually sees. -/
def outcomeToOption : Outcome → Option PyDict
  | Outcome.ok d => some d
  | _ => none

/-- The fixed CSV columns of save_results. -/
def fieldnames : List Name :=
  ["invoice_file", "invoice_number", "date", "seller", "client", "category",
    "confidence", "items_found", "reasoning", "total_amount"].map String.toList

/-- The key whose list value save_results joins. -/
def itemsFoundKey : Name := "items_found".toList

/-- The faults a save_results row can raise: DictWriter's ValueError for
keys outside fieldnames, or str.join's TypeError on a non-string list
element.  Neither is caught in process_all. -/
inductive StoreErr where
  | extraFields : List Name → StoreErr
  | joinTypeFault : StoreErr

/-- Read a list of JSON strings for str.join. -/
def allStrs : List Json → Option (List (List Char))
  | [] => some []
  | Json.jstr s :: rest => (allStrs rest).map (fun ss => s :: ss)
  | _ => none

/-- Python ", ".join. -/
def joinComma : List (List Char) → List Char
  | [] => []
  | [s] => s
  | s :: ss => s ++ [',', ' '] ++ joinComma ss

/-- The keys of a dict, in order. -/
def dictKeys (d : PyDict) : List Name := d.map (fun kv => kv.1)

/-- The keys of a row that lie outside the fixed columns. -/
def rowExtras (d : PyDict) : List Name :=
  (dictKeys d).filter (fun k => !(pyIn k fieldnames))

/-- The per-row work of save_results: copy the row, join a list-valued
items_found with ", " (a non-string element makes str.join raise), then
DictWriter.writerow with the default extrasaction 'raise': any key
outside fieldnames raises ValueError; missing keys are filled with the
empty restval, so they never fault. -/
def processRow (d : PyDict) : Except StoreErr PyDict :=
  match getKey d itemsFoundKey with
  | some (Json.jarr xs) =>
    match allStrs xs with
    | none => Except.error StoreErr.joinTypeFault
    | some ss =>
      let d' := dictSet d itemsFoundKey (Json.jstr (joinComma ss))
      if (rowExtras d').isEmpty then Except.ok d'
      else Except.error (StoreErr.extraFields (rowExtras d'))
  | _ =>
    if (rowExtras d).isEmpty then Except.ok d
    else Except.error (StoreErr.extraFields (rowExtras d))

/-- One line of the CSV file: the header, or a data row identified by its
written dict. -/
inductive CsvLine where
  | header : CsvLine
  | row : PyDict → CsvLine

/-- Write rows one after another in append mode, stopping at the first
faulting row (rows already written stay in the file). -/
def writeRowsGo : List PyDict → List CsvLine → List CsvLine × Option StoreErr
  | [], csv => (csv, none)
  | d :: ds, csv =>
    match processRow d with
    | Except.error e => (csv, some e)
    | Except.ok r => writeRowsGo ds (csv ++ [CsvLine.row r])

/-- save_results: returns at once when the accumulated list is empty
(nothing written, no header); otherwise appends to the csv, writing the
header first only when the file is absent or empty, then one row per
element of self.results - the whole accumulated list, on every call. -/
def saveResults (results : List PyDict) (csv : List CsvLine) :
    List CsvLine × Option StoreErr :=
  if results.isEmpty then (csv, none)
  else writeRowsGo results (if csv.isEmpty then [CsvLine.header] else csv)

/-- The data rows of a CSV file. -/
def dataRows (csv : List CsvLine) : List PyDict :=
  csv.foldr (fun l acc => match l with | CsvLine.row r => r :: acc | CsvLine.header => acc) []

/-- How many header lines a CSV file holds. -/
def headerCount (csv : List CsvLine) : Nat :=
  (csv.filter (fun l => match l with | CsvLine.header => true | CsvLine.row _ => false)).length

/-- One entry of the input folder. -/
structure DirEntry where
  entryName : Name
  isFile : Bool

/-- ASCII lower case, enough for the extension allow-list. -/
def lowerChar (c : Char) : Char :=
  if 'A' ≤ c ∧ c ≤ 'Z' then Char.ofNat (c.toNat + 32) else c

/-- str.lower on a name. -/
def lowerStr (s : List Char) : List Char := s.map lowerChar

/-- Index of the last occurrence of a character. -/
def rfindPos (c : Char) : List Char → Option Nat
  | [] => none
  | x :: xs =>
    match rfindPos c xs with
    | some i => some (i + 1)
    | none => if x = c then some 0 else none

/-- pathlib PurePath.suffix of a file name: the part from the last dot,
empty when that dot is the first or the last character. -/
def pySuffix (name : Name) : Name :=
  match rfindPos '.' name with
  | some i => if 0 < i ∧ i + 1 < name.length then name.drop i else []
  | none => []

/-- The image extension allow-list of process_all. -/
def imageExtensions : List Name :=
  [".jpg", ".jpeg", ".png", ".gif", ".bmp", ".tiff"].map String.toList

/-- The enumeration of process_all: regular files whose lower-cased
suffix is in the allow-list, in directory order. -/
def listImages (dir : List DirEntry) : List Name :=
  (dir.filter (fun e =>
    e.isFile && pyIn (lowerStr (pySuffix e.entryName)) imageExtensions)).map
    (fun e => e.entryName)

/-- Python xs[:k] for an int k: the first k elements for k at least 0,
all but the last -k elements for negative k. -/
def pySliceTo (k : Int) (xs : List Name) : List Name :=
  if 0 ≤ k then xs.take k.toNat else xs.take (xs.length - (-k).toNat)

/-- The free-tier request budget configured in the class. -/
def REQUESTS_PER_MINUTE : ℚ := 15

/-- The fixed inter-item delay: 60 divided by the request budget. -/
def DELAY_BETWEEN_REQUESTS : ℚ := 60 / REQUESTS_PER_MINUTE

/-- The mutable per-run state of the processor: the in-memory completed
list, the accumulated results (never cleared), both counters, and the
on-disk csv and ledger. -/
structure ProcState where
  processedFiles : List Name
  results : List PyDict
  processedCount : Nat
  failedCount : Nat
  csv : List CsvLine
  ledgerDisk : Option (List Name)

/-- What one loop iteration of process_all did to one item. -/
structure ItemTrace where
  itemName : Name
  result : AnalyzeResult

/-- The outcome of the per-item loop. -/
structure LoopOut where
  trace : List ItemTrace
  rateSleeps : List ℚ
  aborted : Option StoreErr
  final : ProcState

/-- The per-item loop of process_all: analyze the item; on success append
the dict to results, append the identifier to the completed list and
bump the success counter, else bump the failure counter; save the ledger
and flush the store; a store fault propagates (aborting the loop); then
rate-limit unless this was the last item.  idx counts from 1, total is
the remaining count. -/
def processItems (oracle : Name → Nat → CallResult) (total : Nat) :
    Nat → List Name → ProcState → LoopOut
  | _, [], st => ⟨[], [], none, st⟩
  | idx, n :: rest, st =>
    let ar := analyzeInvoice (oracle n) n
    let st1 :=
      match ar.outcome with
      | Outcome.ok d =>
        { st with results := st.results ++ [d],
                  processedFiles := st.processedFiles ++ [n],
                  processedCount := st.processedCount + 1 }
      | _ => { st with failedCount := st.failedCount + 1 }
    let st2 := { st1 with ledgerDisk := some st1.processedFiles }
    let sr := saveResults st2.results st2.csv
    let st3 := { st2 with csv := sr.1 }
    match sr.2 with
    | some e => ⟨[⟨n, ar⟩], [], some e, st3⟩
    | none =>
      let r := processItems oracle total (idx + 1) rest st3
      ⟨⟨n, ar⟩ :: r.trace,
        (if idx < total then [DELAY_BETWEEN_REQUESTS] else []) ++ r.rateSleeps,
        r.aborted, r.final⟩

/-- Everything one process_all run produced. -/
structure RunOutput where
  state : ProcState
  trace : List ItemTrace
  rateSleeps : List ℚ
  aborted : Option StoreErr
  earlyNoImages : Bool
  remainingComputed : List Name

/-- process_all: enumerate images (error return when none), load the
ledger, subtract completed identifiers keeping enumeration order, apply
the max_files cap through Python truthiness and slicing, then run the
per-item loop. -/
def processAll (dir : List DirEntry) (ledgerDisk : Option (List Name))
    (csv0 : List CsvLine) (oracle : Name → Nat → CallResult)
    (maxFiles : Option Int) : RunOutput :=
  let imageFiles := listImages dir
  if imageFiles.isEmpty then
    ⟨⟨[], [], 0, 0, csv0, ledgerDisk⟩, [], [], none, true, []⟩
  else
    let processedFiles := ledgerDisk.getD []
    let remaining0 := imageFiles.filter (fun n => !(pyIn n processedFiles))
    let remaining :=
      match maxFiles with
      | some k => if k = 0 then remaining0 else pySliceTo k remaining0
      | none => remaining0
    let st0 : ProcState := ⟨processedFiles, [], 0, 0, csv0, ledgerDisk⟩
    let lo := processItems oracle remaining.length 1 remaining st0
    ⟨lo.final, lo.trace, lo.rateSleeps, lo.aborted, false, remaining⟩

lemma pyIn_iff (n : List Char) (l : List (List Char)) : pyIn n l = true ↔ n ∈ l := by
  induction l with
  | nil => simp [pyIn]
  | cons m rest ih =>
    rw [pyIn]
    by_cases h : m = n
    · subst h; simp
    · simp [h, ih, Ne.symm h]

lemma pyIn_eq_false_iff (n : List Char) (l : List (List Char)) :
    pyIn n l = false ↔ n ∉ l := by
  rw [← Bool.not_eq_true, pyIn_iff]

lemma begins_cons_ne (a b : Char) (as bs : List Char) (h : a ≠ b) :
    begins (a :: as) (b :: bs) = false := by
  simp [begins, h]

lemma begins_append_self (s t : List Char) : begins s (s ++ t) = true := by
  induction s with
  | nil => rfl
  | cons a as ih => simp [begins, ih]

lemma begins_take (pat s : List Char) (h : begins pat s = true) :
    pat = s.take pat.length := by
  induction pat generalizing s with
  | nil => simp
  | cons a as ih =>
    cases s with
    | nil => simp [begins] at h
    | cons b bs =>
      rw [begins] at h
      by_cases hab : a = b
      · subst hab
        rw [if_pos rfl] at h
        simpa [List.take] using ih bs h
      · rw [if_neg hab] at h
        exact absurd h (by simp)

lemma begins_mem_of_lt (pat u w : List Char) (b : Char) (hlen : u.length < pat.length)
    (h : begins pat (u ++ b :: w) = true) : b ∈ pat := by
  have hmem : b ∈ (u ++ b :: w).take pat.length := by
    rw [List.take_append_eq_append_take]
    refine List.mem_append.mpr (Or.inr ?_)
    obtain ⟨m, hm⟩ : ∃ m, pat.length - u.length = m + 1 := ⟨pat.length - u.length - 1, by omega⟩
    rw [hm]
    simp [List.take]
  exact (begins_take pat _ h) ▸ hmem

lemma begins_false_of_barrier (pat u w : List Char) (b : Char) (hb : b ∉ pat)
    (hlen : u.length < pat.length) : begins pat (u ++ b :: w) = false := by
  cases h1 : begins pat (u ++ b :: w) with
  | false => rfl
  | true => exact absurd (begins_mem_of_lt pat u w b hlen h1) hb

lemma begins_append_long (pat u t : List Char) (h : pat.length ≤ u.length) :
    begins pat (u ++ t) = begins pat u := by
  induction pat generalizing u with
  | nil => simp [begins]
  | cons a as ih =>
    cases u with
    | nil => simp at h
    | cons b bs =>
      rw [List.cons_append, begins, begins]
      by_cases hab : a = b
      · rw [if_pos hab, if_pos hab]
        exact ih bs (by simpa using h)
      · rw [if_neg hab, if_neg hab]

lemma begins_drop_eq_false (pat s : List Char) (h : containsSeq pat s = false) :
    ∀ n, begins pat (s.drop n) = false := by
  induction s with
  | nil =>
    intro n
    rw [containsSeq] at h
    simpa using h
  | cons c rest ih =>
    intro n
    rw [containsSeq, Bool.or_eq_false_iff] at h
    cases n with
    | zero => exact h.1
    | succ m => simpa using ih h.2 m

lemma begins_app_false (pat ext x : List Char) (h : begins pat x = false) :
    begins (pat ++ ext) x = false := by
  induction pat generalizing x with
  | nil => simp [begins] at h
  | cons a as ih =>
    cases x with
    | nil => simp [begins]
    | cons b bs =>
      rw [List.cons_append, begins]
      rw [begins] at h
      by_cases hab : a = b
      · rw [if_pos hab] at h ⊢
        exact ih bs h
      · rw [if_neg hab]

lemma containsSeq_ext_false (pat ext s : List Char) (h : containsSeq pat s = false) :
    containsSeq (pat ++ ext) s = false := by
  induction s with
  | nil =>
    rw [containsSeq] at h ⊢
    cases pat with
    | nil => exact absurd h (by simp [begins])
    | cons p ps => simp [begins]
  | cons c rest ih =>
    rw [containsSeq, Bool.or_eq_false_iff] at h
    rw [containsSeq, Bool.or_eq_false_iff]
    exact ⟨begins_app_false pat ext _ h.1, ih h.2⟩

lemma begins_across_false (pat s w : List Char) (b : Char) (hc : containsSeq pat s = false)
    (hb : b ∉ pat) : ∀ n, begins pat (s.drop n ++ b :: w) = false := by
  intro n
  by_cases hlen : pat.length ≤ (s.drop n).length
  · rw [begins_append_long pat _ _ hlen]
    exact begins_drop_eq_false pat s hc n
  · exact begins_false_of_barrier pat _ w b hb (by omega)

lemma containsSeq_append_false (pat s t : List Char)
    (h : ∀ n, n < s.length → begins pat (s.drop n ++ t) = false)
    (ht : containsSeq pat t = false) : containsSeq pat (s ++ t) = false := by
  induction s with
  | nil => simpa using ht
  | cons c s' ih =>
    rw [List.cons_append, containsSeq, Bool.or_eq_false_iff]
    constructor
    · simpa using h 0 (by simp)
    · exact ih (fun n hn => by simpa using h (n + 1) (by simpa using Nat.succ_lt_succ hn))

lemma removeAllF_congr (pat : List Char) :
    ∀ f g s, s.length ≤ f → s.length ≤ g → removeAllF pat f s = removeAllF pat g s := by
  intro f
  induction f with
  | zero =>
    intro g s hf _
    have hs : s = [] := List.eq_nil_of_length_eq_zero (by omega)
    subst hs
    cases g <;> simp [removeAllF]
  | succ f ih =>
    intro g s hf hg
    cases s with
    | nil => cases g <;> simp [removeAllF]
    | cons c rest =>
      cases g with
      | zero => simp at hg
      | succ g' =>
        rw [removeAllF, removeAllF]
        by_cases hb : begins pat (c :: rest) = true
        · rw [if_pos hb, if_pos hb]
          refine ih g' _ ?_ ?_ <;> · simp only [List.length_drop]
                                     simp at hf hg ⊢
                                     omega
        · rw [if_neg hb, if_neg hb]
          exact congrArg (c :: ·) (ih g' rest (by simpa using hf) (by simpa using hg))

lemma removeAll_cons (pat : List Char) (c : Char) (rest : List Char)
    (h : begins pat (c :: rest) = false) :
    removeAll pat (c :: rest) = c :: removeAll pat rest := by
  unfold removeAll
  rw [show (c :: rest).length = rest.length + 1 from rfl, removeAllF, if_neg (by simp [h])]

lemma removeAll_not_contains (pat s : List Char) (h : containsSeq pat s = false) :
    removeAll pat s = s := by
  induction s with
  | nil => rfl
  | cons c rest ih =>
    rw [containsSeq, Bool.or_eq_false_iff] at h
    rw [removeAll_cons pat c rest h.1, ih h.2]

lemma removeAll_append_across (pat s t : List Char)
    (h : ∀ n, n < s.length → begins pat (s.drop n ++ t) = false) :
    removeAll pat (s ++ t) = s ++ removeAll pat t := by
  induction s with
  | nil => simp
  | cons c s' ih =>
    have h0 : begins pat (c :: (s' ++ t)) = false := by simpa using h 0 (by simp)
    rw [List.cons_append, removeAll_cons pat _ _ h0,
      ih (fun n hn => by simpa using h (n + 1) (by simpa using Nat.succ_lt_succ hn))]
    rfl

lemma removeAll_self_start (pat rest : List Char) (hpat : pat ≠ []) :
    removeAll pat (pat ++ rest) = removeAll pat rest := by
  obtain ⟨p, ps, rfl⟩ : ∃ p ps, pat = p :: ps := by
    cases pat with
    | nil => exact absurd rfl hpat
    | cons p ps => exact ⟨p, ps, rfl⟩
  unfold removeAll
  rw [List.cons_append, show (p :: (ps ++ rest)).length = (ps ++ rest).length + 1 from rfl,
    removeAllF, if_pos (by simpa using begins_append_self (p :: ps) rest)]
  rw [show (p :: ps).length - 1 = ps.length from rfl, List.drop_left]
  exact removeAllF_congr _ _ _ _ (by simp) (le_refl _)

lemma dropWs_cons_of_not (c : Char) (xs : List Char) (h : isPySpace c = false) :
    dropWs (c :: xs) = c :: xs := by
  simp [dropWs, List.dropWhile_cons, h]

lemma dropWs_cons_of (c : Char) (xs : List Char) (h : isPySpace c = true) :
    dropWs (c :: xs) = dropWs xs := by
  simp [dropWs, List.dropWhile_cons, h]

lemma head_not_space (c : Char) (xs : List Char) (h : dropWs (c :: xs) = c :: xs) :
    isPySpace c = false := by
  cases hc : isPySpace c with
  | false => rfl
  | true =>
    rw [dropWs_cons_of c xs hc] at h
    have hlen : (dropWs xs).length ≤ xs.length := by
      simp only [dropWs]
      exact (List.dropWhile_sublist _).length_le
    have := congrArg List.length h
    simp at this
    omega

lemma pyStrip_no_trim (c d : Char) (xs : List Char) (hc : isPySpace c = false)
    (hd : isPySpace d = false) : pyStrip (c :: (xs ++ [d])) = c :: (xs ++ [d]) := by
  unfold pyStrip
  rw [dropWs_cons_of_not c _ hc]
  have hrev : (c :: (xs ++ [d])).reverse = d :: (xs.reverse ++ [c]) := by simp
  rw [hrev, dropWs_cons_of_not d _ hd]
  simp

lemma pyStrip_wrap (p : List Char) (h1 : dropWs p = p) (h2 : dropWs p.reverse = p.reverse) :
    pyStrip ('\n' :: (p ++ ['\n'])) = p := by
  cases p with
  | nil => decide
  | cons c p' =>
    have hc : isPySpace c = false := head_not_space c p' h1
    unfold pyStrip
    rw [dropWs_cons_of '\n' _ (by decide), show ((c :: p') ++ ['\n']) = c :: (p' ++ ['\n']) from rfl,
      dropWs_cons_of_not c _ hc]
    have hrev : (c :: (p' ++ ['\n'])).reverse = '\n' :: (c :: p').reverse := by simp
    rw [hrev, dropWs_cons_of '\n' _ (by decide), h2, List.reverse_reverse]

/-- The shape of a raw model output that wraps a payload in one tagged
fence: the marker with tag, a newline, the payload, a newline and the
closing marker. -/
def fenceWrapTagged (p : List Char) : List Char := ticksJson ++ '\n' :: p ++ '\n' :: ticks

/-- The same with an untagged opening fence. -/
def fenceWrapBare (p : List Char) : List Char := ticks ++ '\n' :: p ++ '\n' :: ticks

lemma containsSeq_ticks_newline_cons (p : List Char) (h : containsSeq ticks p = false) :
    containsSeq ticks ('\n' :: p) = false := by
  rw [containsSeq, Bool.or_eq_false_iff]
  exact ⟨begins_cons_ne _ _ _ _ (by decide), h⟩

lemma removeAll_mid (p : List Char) (h : containsSeq ticks p = false) :
    removeAll ticks ('\n' :: p ++ '\n' :: ticks) = '\n' :: (p ++ ['\n']) := by
  have hnp : containsSeq ticks ('\n' :: p) = false := containsSeq_ticks_newline_cons p h
  have hacross := begins_across_false ticks ('\n' :: p) ticks '\n' hnp (by decide)
  have := removeAll_append_across ticks ('\n' :: p) ('\n' :: ticks) (fun n _ => hacross n)
  rw [show ('\n' :: p) ++ ('\n' :: ticks) = '\n' :: p ++ '\n' :: ticks from by simp] at this
  rw [this, show removeAll ticks ('\n' :: ticks) = ['\n'] from by decide]
  simp

lemma stripResponse_tagged (p : List Char) (h1 : containsSeq ticks p = false)
    (h2 : dropWs p = p) (h3 : dropWs p.reverse = p.reverse) :
    stripResponse (fenceWrapTagged p) = p := by
  have hshape : fenceWrapTagged p =
      btick :: ((btick :: btick :: 'j' :: 's' :: 'o' :: 'n' :: '\n' :: p ++ ['\n', btick, btick]) ++ [btick]) := by
    simp [fenceWrapTagged, ticksJson, ticks]
  have hstrip : pyStrip (fenceWrapTagged p) = fenceWrapTagged p := by
    rw [hshape]
    exact pyStrip_no_trim btick btick _ (by decide) (by decide)
  have h0 : begins ticksJson (fenceWrapTagged p) = true := begins_append_self _ _
  have hnp : containsSeq ticks ('\n' :: p) = false := containsSeq_ticks_newline_cons p h1
  have hnpJ : containsSeq ticksJson ('\n' :: p) = false := containsSeq_ext_false ticks _ _ hnp
  have hrj : removeAll ticksJson (fenceWrapTagged p) = '\n' :: p ++ '\n' :: ticks := by
    rw [fenceWrapTagged, List.append_assoc, removeAll_self_start ticksJson _ (by decide)]
    apply removeAll_not_contains
    have hacross := begins_across_false ticksJson ('\n' :: p) ticks '\n' hnpJ (by decide)
    have := containsSeq_append_false ticksJson ('\n' :: p) ('\n' :: ticks)
      (fun n _ => hacross n) (by decide)
    simpa using this
  rw [stripResponse]
  simp only [hstrip, h0, if_true]
  rw [hrj, removeAll_mid p h1]
  exact pyStrip_wrap p h2 h3

lemma stripResponse_bare (p : List Char) (h1 : containsSeq ticks p = false)
    (h2 : dropWs p = p) (h3 : dropWs p.reverse = p.reverse) :
    stripResponse (fenceWrapBare p) = p := by
  have hshape : fenceWrapBare p =
      btick :: ((btick :: btick :: '\n' :: p ++ ['\n', btick, btick]) ++ [btick]) := by
    simp [fenceWrapBare, ticks]
  have hstrip : pyStrip (fenceWrapBare p) = fenceWrapBare p := by
    rw [hshape]
    exact pyStrip_no_trim btick btick _ (by decide) (by decide)
  have h0 : begins ticksJson (fenceWrapBare p) = false := by
    rw [show fenceWrapBare p = btick :: btick :: btick :: ('\n' :: p ++ '\n' :: ticks) from by
      simp [fenceWrapBare, ticks]]
    rw [show ticksJson = btick :: btick :: btick :: ['j', 's', 'o', 'n'] from rfl]
    rw [begins, if_pos rfl, begins, if_pos rfl, begins, if_pos rfl]
    exact begins_cons_ne _ _ _ _ (by decide)
  have hb : begins ticks (fenceWrapBare p) = true := begins_append_self _ _
  rw [stripResponse]
  simp only [hstrip, h0, hb, if_false, if_true, Bool.false_eq_true]
  rw [show fenceWrapBare p = ticks ++ ('\n' :: p ++ '\n' :: ticks) from rfl,
    removeAll_self_start ticks _ (by decide), removeAll_mid p h1]
  exact pyStrip_wrap p h2 h3

/-- The raw output of the C4 counterexample: a well-formed JSON object
wrapped in a single tagged fence, whose string payload itself contains a
backtick run. -/
def c4raw : List Char := ("```json\n\x7b\"reasoning\": \"a``` b\"\x7d\n```").toList

/-- The JSON payload of the C4 counterexample. -/
def c4payload : List Char := ("\x7b\"reasoning\": \"a``` b\"\x7d").toList

/-- C4 counterexample: the claim fails as stated.  This raw output is one
well-formed JSON object wrapped in exactly one leading/trailing tagged
fence, yet the parser does not strip only that wrapper: str.replace also
deletes the backtick run inside the payload, so the decoded reasoning
field is "a b" while the JSON content of the payload says "a``` b". -/
theorem c4_counterexample :
    c4raw = fenceWrapTagged c4payload ∧
    jsonLoads c4payload =
      some (Json.jobj [(("reasoning").toList, Json.jstr (("a``` b").toList))]) ∧
    stripResponse c4raw ≠ c4payload ∧
    classify (("inv.jpg").toList) c4raw =
      Outcome.ok [(("reasoning").toList, Json.jstr (("a b").toList)),
        (invoiceFileKey, Json.jstr (("inv.jpg").toList))] ∧
    ("a b").toList ≠ ("a``` b").toList :=
  ⟨rfl, rfl, by decide, rfl, by decide⟩

/-- C4 (amended): for every raw output consisting of a single well-formed
JSON object wrapped in one leading/trailing fence marker (tagged or not),
whose payload text contains no fence marker of its own and carries no
leading or trailing whitespace, the cleanup strips exactly the wrapper
and decoding yields a record whose field values match the JSON content
(with the item identifier attached). -/
theorem c4_amended_fence_strip (p : List Char) (name : Name) (fields : PyDict)
    (h1 : containsSeq ticks p = false) (h2 : dropWs p = p)
    (h3 : dropWs p.reverse = p.reverse)
    (h4 : jsonLoads p = some (Json.jobj fields)) :
    stripResponse (fenceWrapTagged p) = p ∧
    stripResponse (fenceWrapBare p) = p ∧
    classify name (fenceWrapTagged p) =
      Outcome.ok (dictSet fields invoiceFileKey (Json.jstr name)) ∧
    classify name (fenceWrapBare p) =
      Outcome.ok (dictSet fields invoiceFileKey (Json.jstr name)) := by
  have hA := stripResponse_tagged p h1 h2 h3
  have hB := stripResponse_bare p h1 h2 h3
  refine ⟨hA, hB, ?_, ?_⟩
  · simp [classify, hA, h4]
  · simp [classify, hB, h4]

/-- C4 amended, checked at a concrete fenced payload. -/
theorem c4_amended_fence_strip_witness :
    containsSeq ticks (("\x7b\"k\": \"v\"\x7d").toList) = false ∧
    stripResponse (fenceWrapTagged (("\x7b\"k\": \"v\"\x7d").toList)) =
      ("\x7b\"k\": \"v\"\x7d").toList :=
  ⟨by decide,
    (c4_amended_fence_strip (("\x7b\"k\": \"v\"\x7d").toList) (("inv.jpg").toList)
      [(("k").toList, Json.jstr (("v").toList))]
      (by decide) (by decide) (by decide) rfl).1⟩

lemma dropJWs_cons_of_not (c : Char) (xs : List Char) (h : isJsonWs c = false) :
    dropJWs (c :: xs) = c :: xs := by
  simp [dropJWs, List.dropWhile_cons, h]

lemma dropJWs_cons_of (c : Char) (xs : List Char) (h : isJsonWs c = true) :
    dropJWs (c :: xs) = dropJWs xs := by
  simp [dropJWs, List.dropWhile_cons, h]

lemma plainChar_spec (c : Char) (h : plainChar c = true) :
    32 ≤ c.toNat ∧ c.toNat ≤ 126 ∧ c ≠ '"' ∧ c ≠ '\\' := by
  simp only [plainChar, Bool.and_eq_true, decide_eq_true_eq] at h
  exact ⟨h.1.1.1, h.1.1.2, h.1.2, h.2⟩

lemma escapeChar_plain (c : Char) (h : plainChar c = true) : escapeChar c = [c] := by
  obtain ⟨h1, h2, h3, h4⟩ := plainChar_spec c h
  unfold escapeChar
  rw [if_neg h3, if_neg h4,
    if_neg (show c ≠ '\n' from fun hc => absurd h1 (by subst hc; decide)),
    if_neg (show c ≠ '\t' from fun hc => absurd h1 (by subst hc; decide)),
    if_neg (show c ≠ '\r' from fun hc => absurd h1 (by subst hc; decide)),
    if_neg (show c ≠ Char.ofNat 8 from fun hc => absurd h1 (by subst hc; decide)),
    if_neg (show c ≠ Char.ofNat 12 from fun hc => absurd h1 (by subst hc; decide)),
    if_neg (show ¬(c.toNat < 32 ∨ 126 < c.toNat) from by omega)]

lemma escapeStr_plain (s : List Char) (h : plainText s = true) : escapeStr s = s := by
  induction s with
  | nil => rfl
  | cons c s' ih =>
    simp only [plainText, List.all_cons, Bool.and_eq_true] at h
    show escapeChar c ++ escapeStr s' = c :: s'
    rw [escapeChar_plain c h.1, ih (by simpa [plainText] using h.2)]
    rfl

lemma parseStrBody_plain (s rest : List Char) (h : plainText s = true) :
    parseStrBody (s ++ '"' :: rest) = some (s, rest) := by
  induction s with
  | nil =>
    rw [show ([] : List Char) ++ '"' :: rest = '"' :: rest from rfl, parseStrBody.eq_def]
    simp
  | cons c s' ih =>
    simp only [plainText, List.all_cons, Bool.and_eq_true] at h
    obtain ⟨h1, h2, h3, h4⟩ := plainChar_spec c h.1
    show parseStrBody (c :: (s' ++ '"' :: rest)) = some (c :: s', rest)
    rw [parseStrBody.eq_def]
    simp only [h3, h4, if_false, ih (by simpa [plainText] using h.2)]
    simp [h3, h4, show ¬ c.toNat < 32 from by omega]

lemma jquote_plain_shape (s X : List Char) (h : plainText s = true) :
    jquote s ++ X = '"' :: (s ++ ('"' :: X)) := by
  simp [jquote, escapeStr_plain s h]

lemma parseVal_ws_congr (f : Nat) (I J : List Char) (h : dropJWs I = dropJWs J) :
    parseVal f I = parseVal f J := by
  cases f with
  | zero => rfl
  | succ f' => rw [parseVal, parseVal, h]

lemma dropJWs_idem (I : List Char) : dropJWs (dropJWs I) = dropJWs I := by
  induction I with
  | nil => rfl
  | cons c xs ih =>
    cases hc : isJsonWs c with
    | true => rw [dropJWs_cons_of c xs hc]; exact ih
    | false => rw [dropJWs_cons_of_not c xs hc, dropJWs_cons_of_not c xs hc]

lemma parseVal_jquote (f : Nat) (s rest : List Char) (h : plainText s = true) :
    parseVal (f + 1) (jquote s ++ rest) = some (Json.jstr s, rest) := by
  rw [jquote_plain_shape s rest h, parseVal, dropJWs_cons_of_not '"' _ (by decide)]
  simp [parseStrBody_plain s rest h]

/-- The JSON document a completed ledger save denotes. -/
def ledgerJson (ps : List Name) (ts : Name) : Json :=
  Json.jobj [(processedKey, Json.jarr (ps.map Json.jstr)), (lastUpdatedKey, Json.jstr ts)]

lemma parseElems_ws (f : Nat) (c : Char) (x : List Char) (acc : List Json)
    (h : isJsonWs c = true) : parseElems (f + 1) (c :: x) acc = parseElems (f + 1) x acc := by
  rw [parseElems, parseElems, parseVal_ws_congr f _ x (by rw [dropJWs_cons_of c x h])]

lemma parseElems_names (ns : List Name) :
    ∀ f n acc rest, 2 * ns.length + 1 ≤ f → plainText n = true →
      (∀ m ∈ ns, plainText m = true) →
      parseElems (f + 1) (jquote n ++ (namesTail ns ++ rest)) acc =
        some (Json.jarr (acc ++ (n :: ns).map Json.jstr), rest) := by
  induction ns with
  | nil =>
    intro f n acc rest hf hn _
    obtain ⟨f', rfl⟩ : ∃ f', f = f' + 1 := ⟨f - 1, by omega⟩
    rw [parseElems, parseVal_jquote f' n _ hn]
    dsimp only
    rw [show namesTail [] ++ rest = '\n' :: ' ' :: ' ' :: ']' :: rest from rfl,
      dropJWs_cons_of '\n' _ (by decide), dropJWs_cons_of ' ' _ (by decide),
      dropJWs_cons_of ' ' _ (by decide), dropJWs_cons_of_not ']' _ (by decide)]
    simp
  | cons m ms ih =>
    intro f n acc rest hf hn hms
    obtain ⟨f', rfl⟩ : ∃ f', f = f' + 1 := ⟨f - 1, by omega⟩
    rw [parseElems, parseVal_jquote f' n _ hn]
    dsimp only
    rw [show namesTail (m :: ms) ++ rest =
      ',' :: '\n' :: ' ' :: ' ' :: ' ' :: ' ' :: (jquote m ++ (namesTail ms ++ rest)) from by
        simp [namesTail]]
    rw [dropJWs_cons_of_not ',' _ (by decide)]
    dsimp only
    simp only [if_true]
    rw [parseElems_ws f' '\n' _ _ (by decide), parseElems_ws f' ' ' _ _ (by decide),
      parseElems_ws f' ' ' _ _ (by decide), parseElems_ws f' ' ' _ _ (by decide),
      parseElems_ws f' ' ' _ _ (by decide)]
    rw [ih f' m (acc ++ [Json.jstr n]) rest
      (by simp only [List.length_cons] at hf; omega) (hms m (by simp))
      (fun x hx => hms x (by simp [hx]))]
    simp

lemma parseVal_serializeNames (ps : List Name) (f : Nat) (rest : List Char)
    (hf : 2 * ps.length + 2 ≤ f) (hps : ∀ m ∈ ps, plainText m = true) :
    parseVal (f + 1) (serializeNames ps ++ rest) = some (Json.jarr (ps.map Json.jstr), rest) := by
  cases ps with
  | nil =>
    rw [show serializeNames [] ++ rest = '[' :: ']' :: rest from rfl, parseVal,
      dropJWs_cons_of_not '[' _ (by decide)]
    dsimp only
    rw [if_neg (by decide), if_neg (by decide), if_pos rfl]
    obtain ⟨f1, rfl⟩ : ∃ f1, f = f1 + 1 := ⟨f - 1, by omega⟩
    rw [parseArrBody, dropJWs_cons_of_not ']' _ (by decide)]
    dsimp only
    rw [if_pos rfl]
    simp
  | cons n ns =>
    rw [show serializeNames (n :: ns) ++ rest =
      '[' :: '\n' :: ' ' :: ' ' :: ' ' :: ' ' :: (jquote n ++ (namesTail ns ++ rest)) from by
        simp [serializeNames], parseVal, dropJWs_cons_of_not '[' _ (by decide)]
    dsimp only
    rw [if_neg (by decide), if_neg (by decide), if_pos rfl]
    obtain ⟨f1, rfl⟩ : ∃ f1, f = f1 + 1 := ⟨f - 1, by omega⟩
    rw [parseArrBody, dropJWs_cons_of '\n' _ (by decide), dropJWs_cons_of ' ' _ (by decide),
      dropJWs_cons_of ' ' _ (by decide), dropJWs_cons_of ' ' _ (by decide),
      dropJWs_cons_of ' ' _ (by decide), jquote_plain_shape n _ (hps n (by simp)),
      dropJWs_cons_of_not '"' _ (by decide)]
    dsimp only
    rw [if_neg (by decide), ← jquote_plain_shape n _ (hps n (by simp))]
    obtain ⟨f2, rfl⟩ : ∃ f2, f1 = f2 + 1 := ⟨f1 - 1, by omega⟩
    rw [parseElems_names ns f2 n [] rest (by simp only [List.length_cons] at hf; omega)
      (hps n (by simp)) (fun x hx => hps x (by simp [hx]))]
    simp

lemma parseVal_serializeLedger (ps : List Name) (ts : Name) (f : Nat)
    (hf : 2 * ps.length + 8 ≤ f) (hps : ∀ m ∈ ps, plainText m = true)
    (hts : plainText ts = true) :
    parseVal (f + 1) (serializeLedger ps ts) = some (ledgerJson ps ts, []) := by
  rw [show serializeLedger ps ts =
    lbrace :: '\n' :: ' ' :: ' ' :: (jquote processedKey ++ (':' :: ' ' ::
      (serializeNames ps ++ (',' :: '\n' :: ' ' :: ' ' :: (jquote lastUpdatedKey ++
        (':' :: ' ' :: (jquote ts ++ ['\n', rbrace]))))))) from by
    simp [serializeLedger]]
  rw [parseVal, dropJWs_cons_of_not lbrace _ (by decide)]
  dsimp only
  rw [if_neg (by decide), if_pos rfl]
  obtain ⟨f1, rfl⟩ : ∃ f1, f = f1 + 1 := ⟨f - 1, by omega⟩
  rw [parseObjBody, dropJWs_cons_of '\n' _ (by decide), dropJWs_cons_of ' ' _ (by decide),
    dropJWs_cons_of ' ' _ (by decide), jquote_plain_shape processedKey _ (by decide),
    dropJWs_cons_of_not '"' _ (by decide)]
  dsimp only
  rw [if_neg (by decide)]
  obtain ⟨f2, rfl⟩ : ∃ f2, f1 = f2 + 1 := ⟨f1 - 1, by omega⟩
  rw [parseMembers, dropJWs_cons_of_not '"' _ (by decide)]
  dsimp only
  rw [if_pos rfl, parseStrBody_plain processedKey _ (by decide)]
  dsimp only
  rw [dropJWs_cons_of_not ':' _ (by decide)]
  dsimp only
  rw [if_pos rfl]
  rw [parseVal_ws_congr f2 _ (serializeNames ps ++ (',' :: '\n' :: ' ' :: ' ' ::
      (jquote lastUpdatedKey ++ (':' :: ' ' :: (jquote ts ++ ['\n', rbrace])))))
    (by rw [dropJWs_cons_of ' ' _ (by decide)])]
  obtain ⟨f3, rfl⟩ : ∃ f3, f2 = f3 + 1 := ⟨f2 - 1, by omega⟩
  rw [parseVal_serializeNames ps f3 _ (by omega) hps]
  dsimp only
  rw [dropJWs_cons_of_not ',' _ (by decide)]
  dsimp only
  rw [if_pos rfl]
  rw [parseMembers, dropJWs_cons_of '\n' _ (by decide), dropJWs_cons_of ' ' _ (by decide),
    dropJWs_cons_of ' ' _ (by decide), jquote_plain_shape lastUpdatedKey _ (by decide),
    dropJWs_cons_of_not '"' _ (by decide)]
  dsimp only
  rw [if_pos rfl, parseStrBody_plain lastUpdatedKey _ (by decide)]
  dsimp only
  rw [dropJWs_cons_of_not ':' _ (by decide)]
  dsimp only
  rw [if_pos rfl]
  rw [parseVal_ws_congr f3 _ (jquote ts ++ ['\n', rbrace])
    (by rw [dropJWs_cons_of ' ' _ (by decide)])]
  obtain ⟨f4, rfl⟩ : ∃ f4, f3 = f4 + 1 := ⟨f3 - 1, by omega⟩
  rw [parseVal_jquote f4 ts _ hts]
  dsimp only
  rw [show dropJWs ['\n', rbrace] = [rbrace] from by decide]
  dsimp only
  rw [if_neg (by decide), if_pos rfl]
  simp [ledgerJson, dictSet, show processedKey ≠ lastUpdatedKey from by decide]

lemma namesTail_length (ns : List Name) : ns.length ≤ (namesTail ns).length := by
  induction ns with
  | nil => simp [namesTail]
  | cons m ms ih =>
    simp only [namesTail, List.length_cons, List.length_append]
    omega

lemma serializeLedger_length (ps : List Name) (ts : Name) :
    ps.length + 2 ≤ (serializeLedger ps ts).length := by
  have h : ps.length ≤ (serializeNames ps).length := by
    cases ps with
    | nil => simp [serializeNames]
    | cons n ns =>
      have := namesTail_length ns
      simp only [serializeNames, List.length_cons, List.length_append]
      omega
  simp only [serializeLedger, List.length_cons, List.length_append]
  omega

lemma jsonLoads_serializeLedger (ps : List Name) (ts : Name)
    (hps : ∀ m ∈ ps, plainText m = true) (hts : plainText ts = true) :
    jsonLoads (serializeLedger ps ts) = some (ledgerJson ps ts) := by
  have hlen := serializeLedger_length ps ts
  unfold jsonLoads
  rw [show 3 * (serializeLedger ps ts).length + 3 =
    (3 * (serializeLedger ps ts).length + 2) + 1 from rfl]
  rw [parseVal_serializeLedger ps ts _ (by omega) hps hts]
  simp [dropJWs]

lemma asNames_map (ps : List Name) : asNames (ps.map Json.jstr) = some ps := by
  induction ps with
  | nil => rfl
  | cons n ns ih => simp [asNames, ih]

/-- C3 counterexample: a crash during a save_progress write can leave a
syntactically invalid persisted ledger.  The write is an in-place
open(path, 'w'): it truncates and then writes front to back, so both the
empty file and a five-character prefix are reachable crash states, and
neither parses. -/
theorem c3_counterexample :
    [] ∈ saveProgressCrashStates [("a.jpg").toList] (("2026-10-12T00:00:00").toList) ∧
    jsonLoads [] = none ∧
    (saveProgressContent [("a.jpg").toList] (("2026-10-12T00:00:00").toList)).take 5 ∈
      saveProgressCrashStates [("a.jpg").toList] (("2026-10-12T00:00:00").toList) ∧
    jsonLoads ((saveProgressContent [("a.jpg").toList]
      (("2026-10-12T00:00:00").toList)).take 5) = none := by
  refine ⟨by decide, rfl, by decide, rfl⟩

/-- C3 (amended): every completed ledger save persists exactly the full
current set of completed identifiers plus the fresh timestamp - the
written document parses back to that set and timestamp - but the write
is not atomic: it truncates the ledger file in place and writes
sequentially, with no write-to-temp-then-rename, so a crash mid-write
can leave a syntactically invalid (for instance empty) ledger on disk. -/
theorem c3_amended_ledger_save (ps : List Name) (ts : Name)
    (hps : ∀ m ∈ ps, plainText m = true) (hts : plainText ts = true) :
    jsonLoads (saveProgressContent ps ts) = some (ledgerJson ps ts) ∧
    loadProcessedNames (saveProgressContent ps ts) = some ps ∧
    ledgerLastUpdated (saveProgressContent ps ts) = some ts ∧
    [] ∈ saveProgressCrashStates ps ts ∧
    jsonLoads [] = none := by
  have hl : jsonLoads (saveProgressContent ps ts) = some (ledgerJson ps ts) :=
    jsonLoads_serializeLedger ps ts hps hts
  refine ⟨hl, ?_, ?_, ?_, rfl⟩
  · simp [loadProcessedNames, hl, ledgerJson, getKey, asNames_map]
  · simp [ledgerLastUpdated, hl, ledgerJson, getKey,
      show processedKey ≠ lastUpdatedKey from by decide]
  · unfold saveProgressCrashStates crashContents
    exact List.mem_map.mpr ⟨0, by simp, by simp⟩

/-- C3 amended, checked on a one-identifier ledger. -/
theorem c3_amended_ledger_save_witness :
    (∀ m ∈ [("a.jpg").toList], plainText m = true) ∧
    loadProcessedNames (saveProgressContent [("a.jpg").toList] (("t").toList)) =
      some [("a.jpg").toList] :=
  ⟨by decide, (c3_amended_ledger_save [("a.jpg").toList] (("t").toList)
    (by decide) (by decide)).2.1⟩

/-- Did this outcome count as a success in process_all? -/
def isOkOutcome : Outcome → Bool
  | Outcome.ok _ => true
  | _ => false

/-- The identifiers of the items a trace marked completed. -/
def okNames (tr : List ItemTrace) : List Name :=
  (tr.filter (fun e => isOkOutcome e.result.outcome)).map (fun e => e.itemName)

/-- How many trace entries ended in a failure. -/
def failCount (tr : List ItemTrace) : Nat :=
  (tr.filter (fun e => !(isOkOutcome e.result.outcome))).length

/-- How many trace entries ended in a success. -/
def okCount (tr : List ItemTrace) : Nat :=
  (tr.filter (fun e => isOkOutcome e.result.outcome)).length

lemma writeRowsGo_none (rows : List PyDict) (csv : List CsvLine)
    (h : (writeRowsGo rows csv).2 = none) :
    ∀ d ∈ rows, ∃ r, processRow d = Except.ok r := by
  induction rows generalizing csv with
  | nil => intro d hd; simp at hd
  | cons a as ih =>
    intro d hd
    rw [writeRowsGo] at h
    cases hp : processRow a with
    | error e => rw [hp] at h; simp at h
    | ok r =>
      rw [hp] at h
      rcases List.mem_cons.mp hd with rfl | hd'
      · exact ⟨r, hp⟩
      · exact ih _ h d hd'

lemma writeRowsGo_none_of_clean (rows : List PyDict) (csv : List CsvLine)
    (h : ∀ d ∈ rows, ∃ r, processRow d = Except.ok r) :
    (writeRowsGo rows csv).2 = none := by
  induction rows generalizing csv with
  | nil => rfl
  | cons a as ih =>
    obtain ⟨r, hr⟩ := h a (by simp)
    rw [writeRowsGo, hr]
    exact ih _ (fun d hd => h d (by simp [hd]))

lemma saveResults_snd_none (results : List PyDict) (csv : List CsvLine)
    (h : ∀ d ∈ results, ∃ r, processRow d = Except.ok r) :
    (saveResults results csv).2 = none := by
  unfold saveResults
  by_cases he : results.isEmpty
  · rw [if_pos he]
  · rw [if_neg he]
    exact writeRowsGo_none_of_clean _ _ h

lemma saveResults_none_clean (results : List PyDict) (csv : List CsvLine)
    (h : (saveResults results csv).2 = none) :
    ∀ d ∈ results, ∃ r, processRow d = Except.ok r := by
  unfold saveResults at h
  by_cases he : results.isEmpty
  · intro d hd
    rw [List.isEmpty_iff] at he
    subst he
    simp at hd
  · rw [if_neg he] at h
    exact writeRowsGo_none _ _ h

lemma processItems_cons_ok (oracle : Name → Nat → CallResult) (total idx : Nat)
    (n : Name) (rest : List Name) (st : ProcState) (d : PyDict)
    (ho : (analyzeInvoice (oracle n) n).outcome = Outcome.ok d) :
    processItems oracle total idx (n :: rest) st =
      (let st3 : ProcState := ⟨st.processedFiles ++ [n], st.results ++ [d],
         st.processedCount + 1, st.failedCount,
         (saveResults (st.results ++ [d]) st.csv).1, some (st.processedFiles ++ [n])⟩
       match (saveResults (st.results ++ [d]) st.csv).2 with
       | some e => ⟨[⟨n, analyzeInvoice (oracle n) n⟩], [], some e, st3⟩
       | none =>
         let r := processItems oracle total (idx + 1) rest st3
         ⟨⟨n, analyzeInvoice (oracle n) n⟩ :: r.trace,
           (if idx < total then [DELAY_BETWEEN_REQUESTS] else []) ++ r.rateSleeps,
           r.aborted, r.final⟩) := by
  simp only [processItems, ho]

lemma processItems_cons_fail (oracle : Name → Nat → CallResult) (total idx : Nat)
    (n : Name) (rest : List Name) (st : ProcState)
    (ho : isOkOutcome (analyzeInvoice (oracle n) n).outcome = false) :
    processItems oracle total idx (n :: rest) st =
      (let st3 : ProcState := ⟨st.processedFiles, st.results, st.processedCount,
         st.failedCount + 1, (saveResults st.results st.csv).1, some st.processedFiles⟩
       match (saveResults st.results st.csv).2 with
       | some e => ⟨[⟨n, analyzeInvoice (oracle n) n⟩], [], some e, st3⟩
       | none =>
         let r := processItems oracle total (idx + 1) rest st3
         ⟨⟨n, analyzeInvoice (oracle n) n⟩ :: r.trace,
           (if idx < total then [DELAY_BETWEEN_REQUESTS] else []) ++ r.rateSleeps,
           r.aborted, r.final⟩) := by
  cases hout : (analyzeInvoice (oracle n) n).outcome with
  | ok d => rw [hout] at ho; simp [isOkOutcome] at ho
  | quotaFail => simp only [processItems, hout]
  | malformed diag => simp only [processItems, hout]
  | unexpected => simp only [processItems, hout]

lemma processItems_nil (oracle : Name → Nat → CallResult) (total idx : Nat) (st : ProcState) :
    processItems oracle total idx [] st = ⟨[], [], none, st⟩ := rfl

lemma processItems_processedFiles (oracle : Name → Nat → CallResult) (total : Nat) :
    ∀ (remaining : List Name) (idx : Nat) (st : ProcState),
      (processItems oracle total idx remaining st).final.processedFiles =
        st.processedFiles ++ okNames (processItems oracle total idx remaining st).trace := by
  intro remaining
  induction remaining with
  | nil => intro idx st; simp [processItems_nil, okNames]
  | cons n rest ih =>
    intro idx st
    cases hout : (analyzeInvoice (oracle n) n).outcome
    case ok d =>
      rw [processItems_cons_ok oracle total idx n rest st d hout]
      cases hsr : (saveResults (st.results ++ [d]) st.csv).2 with
      | some e => simp [hsr, okNames, isOkOutcome, hout]
      | none => simp [hsr, ih, okNames, isOkOutcome, hout, List.append_assoc]
    all_goals
      have ho : isOkOutcome (analyzeInvoice (oracle n) n).outcome = false := by rw [hout]; rfl
      rw [processItems_cons_fail oracle total idx n rest st ho]
      cases hsr : (saveResults st.results st.csv).2 with
      | some e => simp [hsr, okNames, isOkOutcome, hout]
      | none => simp [hsr, ih, okNames, isOkOutcome, hout]

lemma processItems_failedCount (oracle : Name → Nat → CallResult) (total : Nat) :
    ∀ (remaining : List Name) (idx : Nat) (st : ProcState),
      (processItems oracle total idx remaining st).final.failedCount =
        st.failedCount + failCount (processItems oracle total idx remaining st).trace := by
  intro remaining
  induction remaining with
  | nil => intro idx st; simp [processItems_nil, failCount]
  | cons n rest ih =>
    intro idx st
    cases hout : (analyzeInvoice (oracle n) n).outcome
    case ok d =>
      rw [processItems_cons_ok oracle total idx n rest st d hout]
      cases hsr : (saveResults (st.results ++ [d]) st.csv).2 with
      | some e => simp [hsr, failCount, isOkOutcome, hout]
      | none => simp [hsr, ih, failCount, isOkOutcome, hout]
    all_goals
      have ho : isOkOutcome (analyzeInvoice (oracle n) n).outcome = false := by rw [hout]; rfl
      rw [processItems_cons_fail oracle total idx n rest st ho]
      cases hsr : (saveResults st.results st.csv).2 with
      | some e => simp [hsr, failCount, isOkOutcome, hout]
      | none => simp [hsr, ih, failCount, isOkOutcome, hout]; omega

lemma processItems_processedCount (oracle : Name → Nat → CallResult) (total : Nat) :
    ∀ (remaining : List Name) (idx : Nat) (st : ProcState),
      (processItems oracle total idx remaining st).final.processedCount =
        st.processedCount + okCount (processItems oracle total idx remaining st).trace := by
  intro remaining
  induction remaining with
  | nil => intro idx st; simp [processItems_nil, okCount]
  | cons n rest ih =>
    intro idx st
    cases hout : (analyzeInvoice (oracle n) n).outcome
    case ok d =>
      rw [processItems_cons_ok oracle total idx n rest st d hout]
      cases hsr : (saveResults (st.results ++ [d]) st.csv).2 with
      | some e => simp [hsr, okCount, isOkOutcome, hout]
      | none => simp [hsr, ih, okCount, isOkOutcome, hout]; omega
    all_goals
      have ho : isOkOutcome (analyzeInvoice (oracle n) n).outcome = false := by rw [hout]; rfl
      rw [processItems_cons_fail oracle total idx n rest st ho]
      cases hsr : (saveResults st.results st.csv).2 with
      | some e => simp [hsr, okCount, isOkOutcome, hout]
      | none => simp [hsr, ih, okCount, isOkOutcome, hout]

lemma processItems_trace_names (oracle : Name → Nat → CallResult) (total : Nat) :
    ∀ (remaining : List Name) (idx : Nat) (st : ProcState),
      ∃ suffix, remaining =
        (processItems oracle total idx remaining st).trace.map (fun e => e.itemName) ++ suffix := by
  intro remaining
  induction remaining with
  | nil => intro idx st; exact ⟨[], by simp [processItems_nil]⟩
  | cons n rest ih =>
    intro idx st
    cases hout : (analyzeInvoice (oracle n) n).outcome
    case ok d =>
      rw [processItems_cons_ok oracle total idx n rest st d hout]
      cases hsr : (saveResults (st.results ++ [d]) st.csv).2 with
      | some e => exact ⟨rest, by simp [hsr]⟩
      | none =>
        obtain ⟨suffix, hsuf⟩ := ih (idx + 1)
          ⟨st.processedFiles ++ [n], st.results ++ [d], st.processedCount + 1, st.failedCount,
            (saveResults (st.results ++ [d]) st.csv).1, some (st.processedFiles ++ [n])⟩
        exact ⟨suffix, by simp only [hsr]; simpa using hsuf⟩
    all_goals
      have ho : isOkOutcome (analyzeInvoice (oracle n) n).outcome = false := by rw [hout]; rfl
      rw [processItems_cons_fail oracle total idx n rest st ho]
      cases hsr : (saveResults st.results st.csv).2 with
      | some e => exact ⟨rest, by simp [hsr]⟩
      | none =>
        obtain ⟨suffix, hsuf⟩ := ih (idx + 1)
          ⟨st.processedFiles, st.results, st.processedCount, st.failedCount + 1,
            (saveResults st.results st.csv).1, some st.processedFiles⟩
        exact ⟨suffix, by simp only [hsr]; simpa using hsuf⟩

lemma processItems_trace_all (oracle : Name → Nat → CallResult) (total : Nat) :
    ∀ (remaining : List Name) (idx : Nat) (st : ProcState),
      (processItems oracle total idx remaining st).aborted = none →
      (processItems oracle total idx remaining st).trace.map (fun e => e.itemName) = remaining := by
  intro remaining
  induction remaining with
  | nil => intro idx st _; simp [processItems_nil]
  | cons n rest ih =>
    intro idx st hab
    cases hout : (analyzeInvoice (oracle n) n).outcome
    case ok d =>
      rw [processItems_cons_ok oracle total idx n rest st d hout] at hab ⊢
      cases hsr : (saveResults (st.results ++ [d]) st.csv).2 with
      | some e => rw [hsr] at hab; simp at hab
      | none =>
        rw [hsr] at hab
        simp only [hsr]
        simpa using ih (idx + 1) _ (by simpa using hab)
    all_goals
      have ho : isOkOutcome (analyzeInvoice (oracle n) n).outcome = false := by rw [hout]; rfl
      rw [processItems_cons_fail oracle total idx n rest st ho] at hab ⊢
      cases hsr : (saveResults st.results st.csv).2 with
      | some e => rw [hsr] at hab; simp at hab
      | none =>
        rw [hsr] at hab
        simp only [hsr]
        simpa using ih (idx + 1) _ (by simpa using hab)

lemma processItems_ledgerDisk (oracle : Name → Nat → CallResult) (total : Nat) :
    ∀ (remaining : List Name) (idx : Nat) (st : ProcState), remaining ≠ [] →
      (processItems oracle total idx remaining st).final.ledgerDisk =
        some (processItems oracle total idx remaining st).final.processedFiles := by
  intro remaining
  induction remaining with
  | nil => intro idx st h; exact absurd rfl h
  | cons n rest ih =>
    intro idx st _
    cases hout : (analyzeInvoice (oracle n) n).outcome
    case ok d =>
      rw [processItems_cons_ok oracle total idx n rest st d hout]
      cases hsr : (saveResults (st.results ++ [d]) st.csv).2 with
      | some e => simp [hsr]
      | none =>
        by_cases hrest : rest = []
        · subst hrest; simp [hsr, processItems_nil]
        · simp only [hsr]; simpa using ih (idx + 1) _ hrest
    all_goals
      have ho : isOkOutcome (analyzeInvoice (oracle n) n).outcome = false := by rw [hout]; rfl
      rw [processItems_cons_fail oracle total idx n rest st ho]
      cases hsr : (saveResults st.results st.csv).2 with
      | some e => simp [hsr]
      | none =>
        by_cases hrest : rest = []
        · subst hrest; simp [hsr, processItems_nil]
        · simp only [hsr]; simpa using ih (idx + 1) _ hrest

lemma processItems_clean_of_no_abort (oracle : Name → Nat → CallResult) (total : Nat) :
    ∀ (remaining : List Name) (idx : Nat) (st : ProcState),
      (processItems oracle total idx remaining st).aborted = none →
      ∀ e ∈ (processItems oracle total idx remaining st).trace, ∀ d,
        e.result.outcome = Outcome.ok d → ∃ r, processRow d = Except.ok r := by
  intro remaining
  induction remaining with
  | nil => intro idx st _ e he; simp [processItems_nil] at he
  | cons n rest ih =>
    intro idx st hab e he d hd
    cases hout : (analyzeInvoice (oracle n) n).outcome
    case ok d0 =>
      rw [processItems_cons_ok oracle total idx n rest st d0 hout] at hab he
      cases hsr : (saveResults (st.results ++ [d0]) st.csv).2 with
      | some er => rw [hsr] at hab; simp at hab
      | none =>
        rw [hsr] at hab he
        simp only [List.mem_cons] at he
        rcases he with rfl | he'
        · have hd0 : d = d0 := by
            simp only [hout] at hd
            exact (Outcome.ok.injEq _ _ ▸ hd : _) ▸ rfl
          subst hd0
          exact saveResults_none_clean _ _ hsr d (by simp)
        · exact ih (idx + 1) _ (by simpa using hab) e (by simpa using he') d hd
    all_goals
      have ho : isOkOutcome (analyzeInvoice (oracle n) n).outcome = false := by rw [hout]; rfl
      rw [processItems_cons_fail oracle total idx n rest st ho] at hab he
      cases hsr : (saveResults st.results st.csv).2 with
      | some er => rw [hsr] at hab; simp at hab
      | none =>
        rw [hsr] at hab he
        simp only [List.mem_cons] at he
        rcases he with rfl | he'
        · rw [hout] at hd; simp at hd
        · exact ih (idx + 1) _ (by simpa using hab) e (by simpa using he') d hd

lemma processItems_no_abort (oracle : Name → Nat → CallResult) (total : Nat) :
    ∀ (remaining : List Name) (idx : Nat) (st : ProcState),
      (∀ d ∈ st.results, ∃ r, processRow d = Except.ok r) →
      (∀ e ∈ (processItems oracle total idx remaining st).trace, ∀ d,
        e.result.outcome = Outcome.ok d → ∃ r, processRow d = Except.ok r) →
      (processItems oracle total idx remaining st).aborted = none := by
  intro remaining
  induction remaining with
  | nil => intro idx st _ _; simp [processItems_nil]
  | cons n rest ih =>
    intro idx st hres htrace
    cases hout : (analyzeInvoice (oracle n) n).outcome
    case ok d0 =>
      have hhead : (⟨n, analyzeInvoice (oracle n) n⟩ : ItemTrace) ∈
          (processItems oracle total idx (n :: rest) st).trace := by
        rw [processItems_cons_ok oracle total idx n rest st d0 hout]
        cases hsr : (saveResults (st.results ++ [d0]) st.csv).2 with
        | some e => simp [hsr]
        | none => simp [hsr]
      have hd0clean : ∃ r, processRow d0 = Except.ok r := htrace _ hhead d0 hout
      have hclean : ∀ dd ∈ st.results ++ [d0], ∃ r, processRow dd = Except.ok r := by
        intro dd hdd
        rcases List.mem_append.mp hdd with hmem | hmem
        · exact hres dd hmem
        · simp at hmem; subst hmem; exact hd0clean
      have hsr : (saveResults (st.results ++ [d0]) st.csv).2 = none :=
        saveResults_snd_none _ _ hclean
      rw [processItems_cons_ok oracle total idx n rest st d0 hout] at htrace ⊢
      rw [hsr] at htrace ⊢
      simp only at htrace ⊢
      exact ih (idx + 1) _ hclean (fun e he d hd => htrace e (by simp [he]) d hd)
    all_goals
      have ho : isOkOutcome (analyzeInvoice (oracle n) n).outcome = false := by rw [hout]; rfl
      have hsr : (saveResults st.results st.csv).2 = none := saveResults_snd_none _ _ hres
      rw [processItems_cons_fail oracle total idx n rest st ho] at htrace ⊢
      rw [hsr] at htrace ⊢
      simp only at htrace ⊢
      exact ih (idx + 1) _ hres (fun e he d hd => htrace e (by simp [he]) d hd)

lemma processItems_rateSleeps (oracle : Name → Nat → CallResult) (total : Nat) :
    ∀ (remaining : List Name) (idx : Nat) (st : ProcState),
      (processItems oracle total idx remaining st).aborted = none →
      idx + remaining.length = total + 1 →
      (processItems oracle total idx remaining st).rateSleeps =
        List.replicate (remaining.length - 1) DELAY_BETWEEN_REQUESTS := by
  intro remaining
  induction remaining with
  | nil => intro idx st _ _; simp [processItems_nil]
  | cons n rest ih =>
    intro idx st hab hlen
    simp only [List.length_cons] at hlen
    cases hout : (analyzeInvoice (oracle n) n).outcome
    case ok d =>
      rw [processItems_cons_ok oracle total idx n rest st d hout] at hab ⊢
      cases hsr : (saveResults (st.results ++ [d]) st.csv).2 with
      | some e => rw [hsr] at hab; simp at hab
      | none =>
        rw [hsr] at hab
        dsimp only at hab ⊢
        by_cases hrest : rest = []
        · subst hrest
          have : ¬ idx < total := by simp at hlen; omega
          simp [this, processItems_nil]
        · have hlt : idx < total := by
            have := List.length_pos.mpr hrest
            omega
          rw [if_pos hlt, ih (idx + 1) _ hab (by omega)]
          have h1 : rest.length = (rest.length - 1) + 1 := by
            have := List.length_pos.mpr hrest
            omega
          have h2 : (n :: rest).length - 1 = rest.length := by simp
          rw [h2]
          conv_rhs => rw [h1]
          rw [List.replicate_succ]
          simp
    all_goals
      have ho : isOkOutcome (analyzeInvoice (oracle n) n).outcome = false := by rw [hout]; rfl
      rw [processItems_cons_fail oracle total idx n rest st ho] at hab ⊢
      cases hsr : (saveResults st.results st.csv).2 with
      | some e => rw [hsr] at hab; simp at hab
      | none =>
        rw [hsr] at hab
        dsimp only at hab ⊢
        by_cases hrest : rest = []
        · subst hrest
          have : ¬ idx < total := by simp at hlen; omega
          simp [this, processItems_nil]
        · have hlt : idx < total := by
            have := List.length_pos.mpr hrest
            omega
          rw [if_pos hlt, ih (idx + 1) _ hab (by omega)]
          have h1 : rest.length = (rest.length - 1) + 1 := by
            have := List.length_pos.mpr hrest
            omega
          have h2 : (n :: rest).length - 1 = rest.length := by simp
          rw [h2]
          conv_rhs => rw [h1]
          rw [List.replicate_succ]
          simp

lemma processItems_trace_cons (oracle : Name → Nat → CallResult) (total idx : Nat)
    (n : Name) (rest : List Name) (st : ProcState) :
    ∃ tl, (processItems oracle total idx (n :: rest) st).trace =
      ⟨n, analyzeInvoice (oracle n) n⟩ :: tl := by
  cases hout : (analyzeInvoice (oracle n) n).outcome
  case ok d =>
    rw [processItems_cons_ok oracle total idx n rest st d hout]
    cases hsr : (saveResults (st.results ++ [d]) st.csv).2 with
    | some e => exact ⟨[], by simp [hsr]⟩
    | none =>
      exact ⟨(processItems oracle total (idx + 1) rest
        ⟨st.processedFiles ++ [n], st.results ++ [d], st.processedCount + 1, st.failedCount,
          (saveResults (st.results ++ [d]) st.csv).1, some (st.processedFiles ++ [n])⟩).trace,
        by simp [hsr]⟩
  all_goals
    have ho : isOkOutcome (analyzeInvoice (oracle n) n).outcome = false := by rw [hout]; rfl
    rw [processItems_cons_fail oracle total idx n rest st ho]
    cases hsr : (saveResults st.results st.csv).2 with
    | some e => exact ⟨[], by simp [hsr]⟩
    | none =>
      exact ⟨(processItems oracle total (idx + 1) rest
        ⟨st.processedFiles, st.results, st.processedCount, st.failedCount + 1,
          (saveResults st.results st.csv).1, some st.processedFiles⟩).trace,
        by simp [hsr]⟩

lemma analyzeLoop_calls_le (resp : Nat → CallResult) (name : Name) :
    ∀ (rem attempt : Nat), (analyzeLoop resp name attempt rem).calls ≤ rem := by
  intro rem
  induction rem with
  | zero => intro attempt; simp [analyzeLoop]
  | succ r ih =>
    intro attempt
    cases hc : resp attempt with
    | text raw => simp [analyzeLoop, hc]
    | otherFailure => simp [analyzeLoop, hc]
    | resourceExhausted d =>
      simp only [analyzeLoop, hc]
      by_cases hr : r = 0
      · simp [hr]
      · simp only [hr, if_false]
        have := ih (attempt + 1)
        omega

lemma analyzeInvoice_quota (resp : Nat → CallResult) (name : Name) (ds : Nat → Option Nat)
    (h : ∀ i, resp i = CallResult.resourceExhausted (ds i)) :
    analyzeInvoice resp name =
      ⟨Outcome.quotaFail, 3, [(ds 0).getD 60, (ds 1).getD 60]⟩ := by
  have h0 := h 0
  have h1 := h 1
  have h2 := h 2
  simp [analyzeInvoice, maxRetries, analyzeLoop, h0, h1, h2]

/-- The remaining work set process_all computes before the loop: the
enumerated images minus the loaded identifiers, in enumeration order,
then the max_files cap under Python truthiness and slicing. -/
def remainingOf (dir : List DirEntry) (ld : Option (List Name)) (mf : Option Int) : List Name :=
  let r0 := (listImages dir).filter (fun n => !(pyIn n (ld.getD [])))
  match mf with
  | some k => if k = 0 then r0 else pySliceTo k r0
  | none => r0

lemma processAll_early (dir : List DirEntry) (ld : Option (List Name)) (csv0 : List CsvLine)
    (oracle : Name → Nat → CallResult) (mf : Option Int) (h : listImages dir = []) :
    processAll dir ld csv0 oracle mf = ⟨⟨[], [], 0, 0, csv0, ld⟩, [], [], none, true, []⟩ := by
  unfold processAll
  rw [if_pos (by simp [h])]

lemma processAll_eq (dir : List DirEntry) (ld : Option (List Name)) (csv0 : List CsvLine)
    (oracle : Name → Nat → CallResult) (mf : Option Int) (h : listImages dir ≠ []) :
    processAll dir ld csv0 oracle mf =
      (let lo := processItems oracle (remainingOf dir ld mf).length 1 (remainingOf dir ld mf)
        ⟨ld.getD [], [], 0, 0, csv0, ld⟩
       ⟨lo.final, lo.trace, lo.rateSleeps, lo.aborted, false, remainingOf dir ld mf⟩) := by
  unfold processAll remainingOf
  rw [if_neg (by simp [List.isEmpty_iff, h])]

lemma okNames_of_no_fail (tr : List ItemTrace) (h : failCount tr = 0) :
    okNames tr = tr.map (fun e => e.itemName) := by
  induction tr with
  | nil => rfl
  | cons e tr ih =>
    by_cases hok : isOkOutcome e.result.outcome = true
    · unfold failCount at h ih
      unfold okNames at ih ⊢
      rw [List.filter_cons_of_neg (by simp [hok])] at h
      rw [List.filter_cons_of_pos (by simp [hok]), List.map_cons, List.map_cons, ih h]
    · unfold failCount at h
      rw [Bool.not_eq_true] at hok
      rw [List.filter_cons_of_pos (by simp [hok])] at h
      simp at h

lemma map_nodup_eq {α β : Type} (l : List α) (f : α → β) (h : (l.map f).Nodup) :
    ∀ a ∈ l, ∀ b ∈ l, f a = f b → a = b := by
  induction l with
  | nil => intro a ha; simp at ha
  | cons x xs ih =>
    simp only [List.map_cons, List.nodup_cons] at h
    intro a ha b hb hf
    rcases List.mem_cons.mp ha with rfl | ha' <;> rcases List.mem_cons.mp hb with rfl | hb'
    · rfl
    · exact absurd (hf ▸ List.mem_map_of_mem f hb') h.1
    · exact absurd (hf ▸ List.mem_map_of_mem f ha') h.1
    · exact ih h.2 a ha' b hb' hf

lemma getKey_mem_keys (d : PyDict) (k : Name) (v : Json) (h : getKey d k = some v) :
    k ∈ dictKeys d := by
  induction d with
  | nil => simp [getKey] at h
  | cons kv rest ih =>
    rw [getKey] at h
    by_cases hk : kv.1 = k
    · simp [dictKeys, hk]
    · rw [if_neg hk] at h
      simp [dictKeys] at ih ⊢
      exact Or.inr (ih h)

lemma dictKeys_dictSet_mem (d : PyDict) (k : Name) (v : Json) (h : k ∈ dictKeys d) :
    dictKeys (dictSet d k v) = dictKeys d := by
  induction d with
  | nil => simp [dictKeys] at h
  | cons kv rest ih =>
    rw [dictSet]
    by_cases hk : kv.1 = k
    · rw [if_pos hk]
      simp [dictKeys, hk]
    · rw [if_neg hk]
      simp only [dictKeys, List.map_cons] at h ⊢
      rcases List.mem_cons.mp h with h1 | h2
      · exact absurd h1.symm hk
      · have h3 := ih h2
        unfold dictKeys at h3
        rw [h3]

lemma rowExtras_ne_nil (d : PyDict) (k : Name) (hk : k ∈ dictKeys d)
    (hnot : k ∉ fieldnames) : (rowExtras d).isEmpty = false := by
  have hmem : k ∈ rowExtras d := by
    unfold rowExtras
    refine List.mem_filter.mpr ⟨hk, ?_⟩
    cases hp : pyIn k fieldnames with
    | false => simp
    | true => exact absurd ((pyIn_iff _ _).mp hp) hnot
  cases hre : rowExtras d with
  | nil => rw [hre] at hmem; simp at hmem
  | cons x xs => rfl

lemma processRow_extra_error (d : PyDict) (k : Name) (hk : k ∈ dictKeys d)
    (hnot : k ∉ fieldnames) : ∀ r, processRow d ≠ Except.ok r := by
  intro r
  unfold processRow
  split
  · next xs hgk =>
    split
    · simp
    · next ss hss =>
      have hkeys : dictKeys (dictSet d itemsFoundKey (Json.jstr (joinComma ss))) = dictKeys d :=
        dictKeys_dictSet_mem d itemsFoundKey _ (getKey_mem_keys d itemsFoundKey _ hgk)
      have hne := rowExtras_ne_nil _ k (hkeys ▸ hk) hnot
      simp [hne]
  · have hne := rowExtras_ne_nil d k hk hnot
    simp [hne]

lemma processItems_trace_result (oracle : Name → Nat → CallResult) (total : Nat) :
    ∀ (remaining : List Name) (idx : Nat) (st : ProcState),
      ∀ e ∈ (processItems oracle total idx remaining st).trace,
        e.result = analyzeInvoice (oracle e.itemName) e.itemName := by
  intro remaining
  induction remaining with
  | nil => intro idx st e he; simp [processItems_nil] at he
  | cons n rest ih =>
    intro idx st e he
    cases hout : (analyzeInvoice (oracle n) n).outcome
    case ok d =>
      rw [processItems_cons_ok oracle total idx n rest st d hout] at he
      cases hsr : (saveResults (st.results ++ [d]) st.csv).2 with
      | some er =>
        rw [hsr] at he
        simp at he
        subst he
        rfl
      | none =>
        rw [hsr] at he
        simp only [List.mem_cons] at he
        rcases he with rfl | he'
        · rfl
        · exact ih (idx + 1) _ e (by simpa using he')
    all_goals
      have ho : isOkOutcome (analyzeInvoice (oracle n) n).outcome = false := by rw [hout]; rfl
      rw [processItems_cons_fail oracle total idx n rest st ho] at he
      cases hsr : (saveResults st.results st.csv).2 with
      | some er =>
        rw [hsr] at he
        simp at he
        subst he
        rfl
      | none =>
        rw [hsr] at he
        simp only [List.mem_cons] at he
        rcases he with rfl | he'
        · rfl
        · exact ih (idx + 1) _ e (by simpa using he')

/-- C8: every raw model output whose cleaned text fails strict JSON
decoding makes analyze_invoice return the malformed outcome carrying the
first 200 characters of the offending (cleaned) text, after exactly one
upstream call, with no retry, no backoff sleep and no partial record;
the caller sees it as None. -/
theorem c8_malformed_output (raw : List Char) (name : Name) (resp : Nat → CallResult)
    (h0 : resp 0 = CallResult.text raw)
    (hbad : jsonLoads (stripResponse raw) = none) :
    analyzeInvoice resp name =
      ⟨Outcome.malformed ((stripResponse raw).take 200), 1, []⟩ ∧
    outcomeToOption (Outcome.malformed ((stripResponse raw).take 200)) = none := by
  constructor
  · simp [analyzeInvoice, maxRetries, analyzeLoop, h0, classify, hbad]
  · rfl

/-- C8 checked on a concrete non-JSON response. -/
theorem c8_malformed_output_witness :
    jsonLoads (stripResponse (("not json").toList)) = none ∧
    analyzeInvoice (fun _ => CallResult.text (("not json").toList)) ([] : Name) =
      ⟨Outcome.malformed ((stripResponse (("not json").toList)).take 200), 1, []⟩ :=
  ⟨rfl, (c8_malformed_output (("not json").toList) ([] : Name) _ rfl rfl).1⟩

/-- C9: in every run that does not abort on a store fault, the
orchestrator sleeps exactly max(0, n-1) times for n remaining items, one
fixed delay after each item except the last, and the delay is exactly
60 divided by the requests-per-minute budget (4 seconds at the budget of
15 baked into the class). -/
theorem c9_rate_limit (dir : List DirEntry) (ld : Option (List Name)) (csv0 : List CsvLine)
    (oracle : Name → Nat → CallResult) (mf : Option Int)
    (hab : (processAll dir ld csv0 oracle mf).aborted = none) :
    (processAll dir ld csv0 oracle mf).rateSleeps =
      List.replicate ((processAll dir ld csv0 oracle mf).remainingComputed.length - 1)
        DELAY_BETWEEN_REQUESTS ∧
    DELAY_BETWEEN_REQUESTS = 60 / REQUESTS_PER_MINUTE ∧
    DELAY_BETWEEN_REQUESTS = 4 ∧ REQUESTS_PER_MINUTE = 15 := by
  refine ⟨?_, rfl, by norm_num [DELAY_BETWEEN_REQUESTS, REQUESTS_PER_MINUTE], rfl⟩
  by_cases h : listImages dir = []
  · rw [processAll_early dir ld csv0 oracle mf h]
    simp
  · rw [processAll_eq dir ld csv0 oracle mf h] at hab ⊢
    dsimp only at hab ⊢
    exact processItems_rateSleeps oracle _ _ 1 _ hab (by omega)

/-- Input folder with two images, used by concrete checks. -/
def wdir2 : List DirEntry := [⟨("a.jpg").toList, true⟩, ⟨("b.jpg").toList, true⟩]

/-- Input folder with one image, used by concrete checks. -/
def wdir1 : List DirEntry := [⟨("a.jpg").toList, true⟩]

/-- An extraction capability that always returns the empty JSON object. -/
def wOkOracle : Name → Nat → CallResult := fun _ _ => CallResult.text (("\x7b\x7d").toList)

/-- C9 checked on a concrete two-item run: exactly one enforced delay. -/
theorem c9_rate_limit_witness :
    (processAll wdir2 none [] wOkOracle none).aborted = none ∧
    (processAll wdir2 none [] wOkOracle none).rateSleeps =
      List.replicate ((processAll wdir2 none [] wOkOracle none).remainingComputed.length - 1)
        DELAY_BETWEEN_REQUESTS :=
  ⟨rfl, (c9_rate_limit wdir2 none [] wOkOracle none rfl).1⟩

/-- The data row the C1 run writes for the first image. -/
def c1rowA : PyDict := [(invoiceFileKey, Json.jstr (("a.jpg").toList))]

/-- The data row the C1 run writes for the second image. -/
def c1rowB : PyDict := [(invoiceFileKey, Json.jstr (("b.jpg").toList))]

/-- C1 exhibits the store duplication defect: after two successful items
with the store flushed after each, the claim demands exactly 2 data rows
and one header; the code leaves 3 data rows - the first item's row is
written twice because save_results re-appends all of self.results on
every call and the list is never cleared.  The header is written once. -/
theorem c1_duplicate_rows :
    (processAll wdir2 none [] wOkOracle none).state.processedCount = 2 ∧
    (processAll wdir2 none [] wOkOracle none).state.csv =
      [CsvLine.header, CsvLine.row c1rowA, CsvLine.row c1rowA, CsvLine.row c1rowB] ∧
    headerCount (processAll wdir2 none [] wOkOracle none).state.csv = 1 ∧
    (dataRows (processAll wdir2 none [] wOkOracle none).state.csv).length = 3 :=
  ⟨rfl, rfl, rfl, rfl⟩

/-- C7 counterexample: with an operator-specified maximum item count of
0, the code does not truncate the remaining set to its first 0 elements;
Python's `if max_files:` treats 0 as absent, so the whole item is still
processed. -/
theorem c7_counterexample :
    (processAll wdir1 none [] wOkOracle (some 0)).remainingComputed = [("a.jpg").toList] ∧
    (processAll wdir1 none [] wOkOracle (some 0)).trace.length = 1 ∧
    ([("a.jpg").toList] : List Name) ≠ [] :=
  ⟨rfl, rfl, by decide⟩

/-- C7 (amended): before any item is processed the work set is exactly
the enumerated items minus the loaded identifiers, preserving the
enumeration order (the remaining set is a sublist of the enumeration and
membership is exactly enumerated-minus-loaded); a positive maximum item
count truncates that ordered set to its first max-count elements, while
a maximum of 0 is treated as no cap at all (Python truthiness). -/
theorem c7_remaining_and_cap (dir : List DirEntry) (ld : Option (List Name))
    (csv0 : List CsvLine) (oracle : Name → Nat → CallResult) (mf : Option Int)
    (himg : listImages dir ≠ []) :
    (∀ n : Name, n ∈ (listImages dir).filter (fun m => !(pyIn m (ld.getD []))) ↔
      n ∈ listImages dir ∧ n ∉ ld.getD []) ∧
    List.Sublist (processAll dir ld csv0 oracle mf).remainingComputed (listImages dir) ∧
    (mf = none → (processAll dir ld csv0 oracle mf).remainingComputed =
      (listImages dir).filter (fun m => !(pyIn m (ld.getD [])))) ∧
    (∀ k : Int, mf = some k → 0 < k →
      (processAll dir ld csv0 oracle mf).remainingComputed =
        ((listImages dir).filter (fun m => !(pyIn m (ld.getD [])))).take k.toNat) ∧
    (mf = some 0 → (processAll dir ld csv0 oracle mf).remainingComputed =
      (listImages dir).filter (fun m => !(pyIn m (ld.getD [])))) := by
  rw [processAll_eq dir ld csv0 oracle mf himg]
  dsimp only
  refine ⟨?_, ?_, ?_, ?_, ?_⟩
  · intro n
    simp [List.mem_filter, Bool.not_eq_true', pyIn_eq_false_iff]
  · have hfil : List.Sublist ((listImages dir).filter (fun m => !(pyIn m (ld.getD []))))
        (listImages dir) := List.filter_sublist _
    cases mf with
    | none => exact hfil
    | some k =>
      dsimp only [remainingOf]
      by_cases hk : k = 0
      · rw [if_pos hk]
        exact hfil
      · rw [if_neg hk]
        unfold pySliceTo
        by_cases hpos : 0 ≤ k
        · rw [if_pos hpos]
          exact (List.take_sublist _ _).trans hfil
        · rw [if_neg hpos]
          exact (List.take_sublist _ _).trans hfil
  · intro hmf
    subst hmf
    rfl
  · intro k hmf hkpos
    subst hmf
    dsimp only [remainingOf]
    rw [if_neg (by omega)]
    unfold pySliceTo
    rw [if_pos (by omega)]
  · intro hmf
    subst hmf
    dsimp only [remainingOf]
    rw [if_pos rfl]

/-- C7 amended, checked on a concrete run with a cap of 1. -/
theorem c7_remaining_and_cap_witness :
    listImages wdir2 ≠ [] ∧
    (processAll wdir2 none [] wOkOracle (some 1)).remainingComputed =
      ((listImages wdir2).filter (fun m =>
        !(pyIn m ((none : Option (List Name)).getD [])))).take (1 : Int).toNat :=
  ⟨by decide, (c7_remaining_and_cap wdir2 none [] wOkOracle (some 1) (by decide)).2.2.2.1 1
    rfl (by decide)⟩

/-- With no max_files cap, the remaining set is exactly the filtered
enumeration. -/
lemma remainingOf_none (dir : List DirEntry) (ld : Option (List Name)) :
    remainingOf dir ld none = (listImages dir).filter (fun n => !(pyIn n (ld.getD []))) := rfl

/-- Every member of the remaining set survives the ledger filter. -/
lemma remainingOf_mem_filter (dir : List DirEntry) (ld : Option (List Name))
    (mf : Option Int) (n : Name) (h : n ∈ remainingOf dir ld mf) :
    n ∈ (listImages dir).filter (fun m => !(pyIn m (ld.getD []))) := by
  unfold remainingOf at h
  cases mf with
  | none => exact h
  | some k =>
    dsimp only at h
    by_cases hk : k = 0
    · rw [if_pos hk] at h
      exact h
    · rw [if_neg hk] at h
      unfold pySliceTo at h
      by_cases hpos : 0 ≤ k
      · rw [if_pos hpos] at h
        exact List.mem_of_mem_take h
      · rw [if_neg hpos] at h
        exact List.mem_of_mem_take h

/-- Members of the remaining set are not among the loaded identifiers. -/
lemma remainingOf_not_loaded (dir : List DirEntry) (ld : Option (List Name))
    (mf : Option Int) (n : Name) (h : n ∈ remainingOf dir ld mf) :
    n ∉ ld.getD [] := by
  have hmem := List.mem_filter.mp (remainingOf_mem_filter dir ld mf n h)
  have hpy : pyIn n (ld.getD []) = false := by
    cases hp : pyIn n (ld.getD []) with
    | false => rfl
    | true => rw [hp] at hmem; simp at hmem
  exact (pyIn_eq_false_iff _ _).mp hpy

/-- The remaining set is a sublist of the enumeration. -/
lemma remainingOf_sublist (dir : List DirEntry) (ld : Option (List Name)) (mf : Option Int) :
    List.Sublist (remainingOf dir ld mf) (listImages dir) := by
  have hfil : List.Sublist ((listImages dir).filter (fun m => !(pyIn m (ld.getD []))))
      (listImages dir) := List.filter_sublist _
  unfold remainingOf
  cases mf with
  | none => exact hfil
  | some k =>
    dsimp only
    by_cases hk : k = 0
    · rw [if_pos hk]
      exact hfil
    · rw [if_neg hk]
      unfold pySliceTo
      by_cases hpos : 0 ≤ k
      · rw [if_pos hpos]
        exact (List.take_sublist _ _).trans hfil
      · rw [if_neg hpos]
        exact (List.take_sublist _ _).trans hfil

/-- A ledger covering the whole list makes the resume filter empty. -/
lemma filter_not_pyIn_eq_nil (l s : List Name) (h : ∀ p ∈ l, p ∈ s) :
    l.filter (fun n => !(pyIn n s)) = [] := by
  rw [List.filter_eq_nil_iff]
  intro a ha
  have hpy : pyIn a s = true := (pyIn_iff a s).mpr (h a ha)
  simp [hpy]

/-- When the first of at least two items fails and nothing has been
accumulated yet, the loop records the first item and still runs the
second one. -/
lemma processItems_two_fail_first (oracle : Name → Nat → CallResult) (total idx : Nat)
    (n m : Name) (rest : List Name) (st : ProcState) (hres : st.results = [])
    (ho : isOkOutcome (analyzeInvoice (oracle n) n).outcome = false) :
    ∃ tl, (processItems oracle total idx (n :: m :: rest) st).trace =
      ⟨n, analyzeInvoice (oracle n) n⟩ :: ⟨m, analyzeInvoice (oracle m) m⟩ :: tl := by
  rw [processItems_cons_fail oracle total idx n (m :: rest) st ho]
  have hsv : (saveResults st.results st.csv).2 = none := by
    rw [hres]
    rfl
  rw [hsv]
  dsimp only
  obtain ⟨tl2, htl2⟩ := processItems_trace_cons oracle total (idx + 1) m rest
    ⟨st.processedFiles, st.results, st.processedCount, st.failedCount + 1,
      (saveResults st.results st.csv).1, some st.processedFiles⟩
  exact ⟨tl2, by rw [htl2]⟩

/-- C2: in every run the extraction capability is invoked at most 3
times per item (max_retries); for an item whose capability signals quota
exhaustion on every invocation it is called exactly 3 times, the outcome
is reported to the caller as None rather than raised, and the
orchestrator still attempts the next item of the work set. -/
theorem c2_retry_bound (dir : List DirEntry) (ld : Option (List Name)) (csv0 : List CsvLine)
    (oracle : Name → Nat → CallResult) (mf : Option Int) (n m : Name) (rest : List Name)
    (hrem : (processAll dir ld csv0 oracle mf).remainingComputed = n :: m :: rest)
    (hq : ∀ i, oracle n i = CallResult.resourceExhausted none) :
    (∀ e ∈ (processAll dir ld csv0 oracle mf).trace, e.result.calls ≤ maxRetries) ∧
    analyzeInvoice (oracle n) n = ⟨Outcome.quotaFail, maxRetries, [60, 60]⟩ ∧
    outcomeToOption Outcome.quotaFail = none ∧
    (∃ tl, (processAll dir ld csv0 oracle mf).trace =
      ⟨n, analyzeInvoice (oracle n) n⟩ :: ⟨m, analyzeInvoice (oracle m) m⟩ :: tl) := by
  have hai : analyzeInvoice (oracle n) n = ⟨Outcome.quotaFail, maxRetries, [60, 60]⟩ := by
    have h := analyzeInvoice_quota (oracle n) n (fun _ => none) hq
    simpa [maxRetries] using h
  have himg : listImages dir ≠ [] := by
    intro h
    rw [processAll_early dir ld csv0 oracle mf h] at hrem
    exact absurd hrem (by simp)
  rw [processAll_eq dir ld csv0 oracle mf himg] at hrem ⊢
  dsimp only at hrem ⊢
  rw [hrem]
  refine ⟨?_, hai, rfl, ?_⟩
  · intro e he
    rw [processItems_trace_result oracle (n :: m :: rest).length (n :: m :: rest) 1
      ⟨ld.getD [], [], 0, 0, csv0, ld⟩ e he]
    exact analyzeLoop_calls_le (oracle e.itemName) e.itemName maxRetries 0
  · exact processItems_two_fail_first oracle (n :: m :: rest).length 1 n m rest
      ⟨ld.getD [], [], 0, 0, csv0, ld⟩ rfl (by rw [hai]; rfl)

/-- A capability that exhausts quota forever on a.jpg and returns the
empty object on every other item. -/
def failAOracle : Name → Nat → CallResult := fun nm _ =>
  if nm = ("a.jpg").toList then CallResult.resourceExhausted none
  else CallResult.text (("\x7b\x7d").toList)

/-- C2 checked on a concrete two-item run whose first item always hits
the quota: exactly 3 calls for it, the run still reaches item two. -/
theorem c2_retry_bound_witness :
    (processAll wdir2 none [] failAOracle none).remainingComputed =
      ("a.jpg").toList :: ("b.jpg").toList :: [] ∧
    (∀ i, failAOracle (("a.jpg").toList) i = CallResult.resourceExhausted none) ∧
    analyzeInvoice (failAOracle (("a.jpg").toList)) (("a.jpg").toList) =
      ⟨Outcome.quotaFail, maxRetries, [60, 60]⟩ ∧
    (∀ e ∈ (processAll wdir2 none [] failAOracle none).trace,
      e.result.calls ≤ maxRetries) := by
  have hq : ∀ i, failAOracle (("a.jpg").toList) i = CallResult.resourceExhausted none :=
    fun _ => rfl
  have h := c2_retry_bound wdir2 none [] failAOracle none (("a.jpg").toList)
    (("b.jpg").toList) [] rfl hq
  exact ⟨rfl, hq, h.2.1, h.1⟩

/-- C5: per-item errors are isolated: the failure counter counts exactly
the failed trace entries, a failed item's identifier is never in the
final completed list (so it is retried on the next run), when the run
does not abort every remaining item gets its loop iteration, and no
per-item analysis error ever aborts the loop (only a store fault on a
successfully parsed row can). -/
theorem c5_failure_isolation (dir : List DirEntry) (ld : Option (List Name))
    (csv0 : List CsvLine) (oracle : Name → Nat → CallResult) (mf : Option Int)
    (hnd : (listImages dir).Nodup) :
    (processAll dir ld csv0 oracle mf).state.failedCount =
      failCount (processAll dir ld csv0 oracle mf).trace ∧
    (∀ e ∈ (processAll dir ld csv0 oracle mf).trace,
      isOkOutcome e.result.outcome = false →
      e.itemName ∉ (processAll dir ld csv0 oracle mf).state.processedFiles) ∧
    ((processAll dir ld csv0 oracle mf).aborted = none →
      (processAll dir ld csv0 oracle mf).trace.map (fun t => t.itemName) =
        (processAll dir ld csv0 oracle mf).remainingComputed) ∧
    ((∀ e ∈ (processAll dir ld csv0 oracle mf).trace, ∀ d,
        e.result.outcome = Outcome.ok d → ∃ r, processRow d = Except.ok r) →
      (processAll dir ld csv0 oracle mf).aborted = none) := by
  by_cases himg : listImages dir = []
  · rw [processAll_early dir ld csv0 oracle mf himg]
    refine ⟨rfl, ?_, ?_, ?_⟩
    · intro e he hf
      exact absurd he (List.not_mem_nil e)
    · intro _
      rfl
    · intro _
      rfl
  · rw [processAll_eq dir ld csv0 oracle mf himg]
    dsimp only
    refine ⟨?_, ?_, ?_, ?_⟩
    · have hfc := processItems_failedCount oracle (remainingOf dir ld mf).length
        (remainingOf dir ld mf) 1 ⟨ld.getD [], [], 0, 0, csv0, ld⟩
      simpa using hfc
    · intro e he hfail hmem
      rw [processItems_processedFiles oracle (remainingOf dir ld mf).length
        (remainingOf dir ld mf) 1 ⟨ld.getD [], [], 0, 0, csv0, ld⟩] at hmem
      obtain ⟨suffix, hsuf⟩ := processItems_trace_names oracle (remainingOf dir ld mf).length
        (remainingOf dir ld mf) 1 ⟨ld.getD [], [], 0, 0, csv0, ld⟩
      rcases List.mem_append.mp hmem with hm | hm
      · have hnameR : e.itemName ∈ remainingOf dir ld mf := by
          rw [hsuf]
          exact List.mem_append.mpr (Or.inl (List.mem_map_of_mem _ he))
        exact (remainingOf_not_loaded dir ld mf e.itemName hnameR) hm
      · simp only [okNames] at hm
        obtain ⟨e2, he2, hname⟩ := List.mem_map.mp hm
        have he2tr := List.mem_of_mem_filter he2
        have he2ok : isOkOutcome e2.result.outcome = true := (List.mem_filter.mp he2).2
        have hRnd : (remainingOf dir ld mf).Nodup :=
          hnd.sublist (remainingOf_sublist dir ld mf)
        have hsub : List.Sublist (((processItems oracle (remainingOf dir ld mf).length 1
            (remainingOf dir ld mf) ⟨ld.getD [], [], 0, 0, csv0, ld⟩).trace).map
            (fun t => t.itemName)) (remainingOf dir ld mf) := by
          conv_rhs => rw [hsuf]
          exact List.sublist_append_left _ _
        have htrnd := hRnd.sublist hsub
        have heq := map_nodup_eq _ _ htrnd e2 he2tr e he hname
        rw [heq] at he2ok
        rw [hfail] at he2ok
        exact Bool.noConfusion he2ok
    · intro hab
      exact processItems_trace_all oracle (remainingOf dir ld mf).length
        (remainingOf dir ld mf) 1 ⟨ld.getD [], [], 0, 0, csv0, ld⟩ hab
    · intro hclean
      refine processItems_no_abort oracle (remainingOf dir ld mf).length
        (remainingOf dir ld mf) 1 ⟨ld.getD [], [], 0, 0, csv0, ld⟩ ?_ hclean
      intro d hd
      exact absurd hd (List.not_mem_nil d)

/-- C5 checked on a concrete run whose first item always fails: one
counted failure, no abort. -/
theorem c5_failure_isolation_witness :
    (listImages wdir2).Nodup ∧
    (processAll wdir2 none [] failAOracle none).state.failedCount =
      failCount (processAll wdir2 none [] failAOracle none).trace ∧
    (processAll wdir2 none [] failAOracle none).aborted = none :=
  ⟨by decide, (c5_failure_isolation wdir2 none [] failAOracle none (by decide)).1, rfl⟩

/-- A capability that signals quota exhaustion on every invocation. -/
def quotaOracle : Name → Nat → CallResult := fun _ _ => CallResult.resourceExhausted none

/-- C6 counterexample: a first run that completes without a crash but
whose only item fails leaves the item out of the ledger, so the second
run on the unchanged directory computes a nonempty remaining set and
processes the item again - the claimed idempotence does not hold. -/
theorem c6_counterexample :
    (processAll wdir1 none [] quotaOracle none).aborted = none ∧
    (processAll wdir1 (processAll wdir1 none [] quotaOracle none).state.ledgerDisk
      (processAll wdir1 none [] quotaOracle none).state.csv quotaOracle none).remainingComputed =
      [("a.jpg").toList] ∧
    ([("a.jpg").toList] : List Name) ≠ [] ∧
    (processAll wdir1 (processAll wdir1 none [] quotaOracle none).state.ledgerDisk
      (processAll wdir1 none [] quotaOracle none).state.csv quotaOracle none).trace.length =
      1 :=
  ⟨rfl, rfl, by decide, rfl⟩

/-- C6 (amended): the idempotence holds for fault-free runs: if the
first run completes without a store fault and with zero failed items,
then a second run on the unchanged directory, resuming from the ledger
the first run left on disk, computes an empty remaining set and
processes zero items.  A run with failures reprocesses exactly the
failed items instead. -/
theorem c6_amended_idempotent (dir : List DirEntry) (ld : Option (List Name))
    (csv0 : List CsvLine) (oracle1 oracle2 : Name → Nat → CallResult)
    (hab : (processAll dir ld csv0 oracle1 none).aborted = none)
    (hfail : (processAll dir ld csv0 oracle1 none).state.failedCount = 0) :
    (processAll dir (processAll dir ld csv0 oracle1 none).state.ledgerDisk
      (processAll dir ld csv0 oracle1 none).state.csv oracle2 none).remainingComputed = [] ∧
    (processAll dir (processAll dir ld csv0 oracle1 none).state.ledgerDisk
      (processAll dir ld csv0 oracle1 none).state.csv oracle2 none).trace = [] := by
  by_cases himg : listImages dir = []
  · refine ⟨?_, ?_⟩ <;> rw [processAll_early dir _ _ oracle2 none himg]
  · rw [processAll_eq dir ld csv0 oracle1 none himg] at hab hfail ⊢
    dsimp only at hab hfail ⊢
    rw [processAll_eq dir _ _ oracle2 none himg]
    dsimp only
    have hcov : ∀ p ∈ listImages dir,
        p ∈ ((processItems oracle1 (remainingOf dir ld none).length 1
          (remainingOf dir ld none)
          ⟨ld.getD [], [], 0, 0, csv0, ld⟩).final.ledgerDisk).getD [] := by
      by_cases hrem1 : remainingOf dir ld none = []
      · intro p hp
        have hld2 : (processItems oracle1 (remainingOf dir ld none).length 1
            (remainingOf dir ld none)
            ⟨ld.getD [], [], 0, 0, csv0, ld⟩).final.ledgerDisk = ld := by
          rw [hrem1]
          rfl
        rw [hld2]
        have h0 : (listImages dir).filter (fun q => !(pyIn q (ld.getD []))) = [] := by
          rw [← remainingOf_none dir ld]
          exact hrem1
        have h1 := List.filter_eq_nil_iff.mp h0 p hp
        have hpy : pyIn p (ld.getD []) = true := by
          cases hcase : pyIn p (ld.getD []) with
          | true => rfl
          | false => exact absurd (by simp [hcase]) h1
        exact (pyIn_iff _ _).mp hpy
      · have hld := processItems_ledgerDisk oracle1 (remainingOf dir ld none).length
          (remainingOf dir ld none) 1 ⟨ld.getD [], [], 0, 0, csv0, ld⟩ hrem1
        have hfc := processItems_failedCount oracle1 (remainingOf dir ld none).length
          (remainingOf dir ld none) 1 ⟨ld.getD [], [], 0, 0, csv0, ld⟩
        have hfail0 : failCount (processItems oracle1 (remainingOf dir ld none).length 1
            (remainingOf dir ld none) ⟨ld.getD [], [], 0, 0, csv0, ld⟩).trace = 0 := by
          rw [hfc] at hfail
          simpa using hfail
        have htr := processItems_trace_all oracle1 (remainingOf dir ld none).length
          (remainingOf dir ld none) 1 ⟨ld.getD [], [], 0, 0, csv0, ld⟩ hab
        have hok := okNames_of_no_fail _ hfail0
        have hpf := processItems_processedFiles oracle1 (remainingOf dir ld none).length
          (remainingOf dir ld none) 1 ⟨ld.getD [], [], 0, 0, csv0, ld⟩
        have hpf2 : (processItems oracle1 (remainingOf dir ld none).length 1
            (remainingOf dir ld none)
            ⟨ld.getD [], [], 0, 0, csv0, ld⟩).final.processedFiles =
            ld.getD [] ++ remainingOf dir ld none := by
          rw [hpf, hok, htr]
        intro p hp
        rw [hld, Option.getD_some, hpf2]
        by_cases hnl : p ∈ ld.getD []
        · exact List.mem_append.mpr (Or.inl hnl)
        · refine List.mem_append.mpr (Or.inr ?_)
          rw [remainingOf_none]
          refine List.mem_filter.mpr ⟨hp, ?_⟩
          have hfalse : pyIn p (ld.getD []) = false := (pyIn_eq_false_iff _ _).mpr hnl
          simp [hfalse]
    have hrem2 : remainingOf dir
        (processItems oracle1 (remainingOf dir ld none).length 1 (remainingOf dir ld none)
          ⟨ld.getD [], [], 0, 0, csv0, ld⟩).final.ledgerDisk none = [] := by
      rw [remainingOf_none]
      exact filter_not_pyIn_eq_nil _ _ hcov
    refine ⟨hrem2, ?_⟩
    rw [hrem2]
    rfl

/-- C6 amended, checked concretely: a clean two-item first run makes
the second run compute an empty remaining set. -/
theorem c6_amended_idempotent_witness :
    (processAll wdir2 none [] wOkOracle none).aborted = none ∧
    (processAll wdir2 none [] wOkOracle none).state.failedCount = 0 ∧
    (processAll wdir2 (processAll wdir2 none [] wOkOracle none).state.ledgerDisk
      (processAll wdir2 none [] wOkOracle none).state.csv wOkOracle none).remainingComputed =
      [] :=
  ⟨rfl, rfl, (c6_amended_idempotent wdir2 none [] wOkOracle wOkOracle rfl rfl).1⟩

/-- C10: if any successfully parsed result record carries a key outside
the ten fixed columns, the store append faults and the fault is not
caught at the item boundary: the run aborts, and the item is not counted
in the failure counter (which counts only analysis failures). -/
theorem c10_extra_field_aborts (dir : List DirEntry) (ld : Option (List Name))
    (csv0 : List CsvLine) (oracle : Name → Nat → CallResult) (mf : Option Int)
    (hdirty : ∃ e ∈ (processAll dir ld csv0 oracle mf).trace, ∃ d,
      e.result.outcome = Outcome.ok d ∧ ∃ k ∈ dictKeys d, k ∉ fieldnames) :
    (processAll dir ld csv0 oracle mf).aborted.isSome = true ∧
    (processAll dir ld csv0 oracle mf).state.failedCount =
      failCount (processAll dir ld csv0 oracle mf).trace := by
  have himg : listImages dir ≠ [] := by
    intro h
    rw [processAll_early dir ld csv0 oracle mf h] at hdirty
    obtain ⟨e, he, -⟩ := hdirty
    exact absurd he (List.not_mem_nil e)
  rw [processAll_eq dir ld csv0 oracle mf himg] at hdirty ⊢
  dsimp only at hdirty ⊢
  constructor
  · cases habs : (processItems oracle (remainingOf dir ld mf).length 1 (remainingOf dir ld mf)
        ⟨ld.getD [], [], 0, 0, csv0, ld⟩).aborted with
    | some err => rfl
    | none =>
      exfalso
      obtain ⟨e, he, d, hod, k, hk, hknot⟩ := hdirty
      obtain ⟨r, hr⟩ := processItems_clean_of_no_abort oracle (remainingOf dir ld mf).length
        (remainingOf dir ld mf) 1 ⟨ld.getD [], [], 0, 0, csv0, ld⟩ habs e he d hod
      exact processRow_extra_error d k hk hknot r hr
  · have hfc := processItems_failedCount oracle (remainingOf dir ld mf).length
      (remainingOf dir ld mf) 1 ⟨ld.getD [], [], 0, 0, csv0, ld⟩
    simpa using hfc

/-- A capability whose parsed output carries a key outside the fixed
columns. -/
def c10oracle : Name → Nat → CallResult :=
  fun _ _ => CallResult.text (("\x7b\"bogus\": 1\x7d").toList)

/-- The record the c10oracle run parses for its one item. -/
def c10row : PyDict :=
  [(("bogus").toList, Json.jnum (("1").toList)),
    (("invoice_file").toList, Json.jstr (("a.jpg").toList))]

/-- C10 checked concretely: one item whose record has the extra key
bogus makes the run abort while the failure counter stays 0. -/
theorem c10_extra_field_aborts_witness :
    (∃ e ∈ (processAll wdir1 none [] c10oracle none).trace, ∃ d,
      e.result.outcome = Outcome.ok d ∧ ∃ k ∈ dictKeys d, k ∉ fieldnames) ∧
    (processAll wdir1 none [] c10oracle none).aborted.isSome = true ∧
    (processAll wdir1 none [] c10oracle none).state.failedCount = 0 := by
  have htr : (processAll wdir1 none [] c10oracle none).trace =
      [⟨("a.jpg").toList,
        analyzeInvoice (c10oracle (("a.jpg").toList)) (("a.jpg").toList)⟩] := rfl
  have hd : ∃ e ∈ (processAll wdir1 none [] c10oracle none).trace, ∃ d,
      e.result.outcome = Outcome.ok d ∧ ∃ k ∈ dictKeys d, k ∉ fieldnames := by
    refine ⟨⟨("a.jpg").toList,
      analyzeInvoice (c10oracle (("a.jpg").toList)) (("a.jpg").toList)⟩,
      ?_, c10row, rfl, ("bogus").toList, ?_, ?_⟩
    · rw [htr]
      exact List.mem_singleton.mpr rfl
    · decide
    · decide
  exact ⟨hd, (c10_extra_field_aborts wdir1 none [] c10oracle none hd).1, rfl⟩
